import Mathlib

/-!
A shallow embedding of the buddy-system memory allocator in `src/buddy.c`
(`get_kval`, `buddy_init`, `buddy_malloc`, `buddy_calloc`, `buddy_realloc`,
`find_buddy`, `buddy_free`) together with theorems about it.

Modelling conventions:
* Machine addresses inside the arena are represented by their byte offset
  from `mempool.start`; the arena base itself is kept as the absolute
  address returned by the modelled `sbrk`.
* Block headers are modelled as atomic records stored at an offset
  (`State.mem : Nat → Header`); payload bytes live in a separate byte map
  (`State.bytes`).  `sizeof(struct block_header)` is 24 bytes on the LP64
  platform the code targets (two `short`s, four bytes of padding, two
  eight-byte pointers).
* `sbrk` is modelled as an always-succeeding break-pointer bump, matching
  the documented "OS grants the arena" behaviour; OS denial is not needed
  by any claim.
* Loops are expressed with an explicit fuel argument that is always large
  enough on the executions reached in the theorems below; the C loops have
  no bound of their own and can run away on corrupted states.
* A store through a NULL pointer is undefined behaviour in C.  The header
  store primitive ignores such stores (they are unreachable in the states
  considered here), while `memset`/`memcpy` return `none` when handed a
  NULL pointer, making the undefined behaviour observable.
-/

/-- `sizeof(struct block_header)` on the LP64 target: 2 + 2 + padding 4 + 8 + 8. -/
def HDR_SIZE : Nat := 24

/-- `MAX_KVAL` from buddy.c. -/
def MAX_KVAL : Nat := 37

/-- `MAX_SIZE = 1 << (MAX_KVAL-1)` from buddy.c. -/
def MAX_SIZE : Nat := 2 ^ (MAX_KVAL - 1)

/-- `DEFAULT_MAX_MEM_SIZE = 512*1024*1024` from buddy.c. -/
def DEFAULT_MAX_MEM_SIZE : Nat := 512 * 1024 * 1024

/-- block tag `RESERVED = 0`. -/
def RESERVED : Int := 0

/-- block tag `FREE = 1`. -/
def FREE : Int := 1

/-- header tag `UNUSED = -1` (the sentinel tag). -/
def UNUSED : Int := -1

/-- `ENOMEM` (the conventional Linux value). -/
def ENOMEM : Int := 12

/-- The loop body of `get_kval`: `while (curr < size) { curr <<= 1; kval++; }`.
The fuel argument is a bound on the remaining iterations; `get_kval` passes
enough fuel for the loop to run to completion. -/
def gkLoop : Nat → Nat → Nat → Nat → Nat
  | 0, _, kval, _ => kval
  | fuel + 1, curr, kval, size =>
    if curr < size then gkLoop fuel (curr * 2) (kval + 1) size else kval

/-- `get_kval` from buddy.c: starting from `curr = 1`, `kval = 1`, double
`curr` until `curr ≥ size`, and return `kval - 1`: the smallest `k` with
`2^k ≥ size` (and `0` for `size = 0`). -/
def get_kval (size : Nat) : Nat :=
  gkLoop size 1 1 size - 1

/-- A pointer value: NULL, a block header at a byte offset inside the arena,
or the address of the sentinel `mempool.avail[k]`. -/
inductive Ptr where
  | null : Ptr
  | blk (off : Nat) : Ptr
  | sent (k : Nat) : Ptr
deriving DecidableEq, Repr

/-- `struct block_header`. -/
structure Header where
  tag : Int
  kval : Nat
  next : Ptr
  prev : Ptr
deriving DecidableEq, Repr

/-- An all-zero header: the content of C static storage before any write,
and of freshly acquired arena memory. -/
def zeroHdr : Header := ⟨0, 0, Ptr.null, Ptr.null⟩

/-- The global state: the modelled program break, `mempool` (start, lgsize,
size, avail table), the in-arena header cells, the payload bytes, the
`initialized` flag and `errno`. -/
structure State where
  brk : Nat
  start : Nat
  lgsize : Nat
  size : Nat
  avail : Nat → Header
  mem : Nat → Header
  bytes : Nat → Nat
  inited : Bool
  errno : Int

/-- The pristine process state: static storage is zero-initialized. -/
def st0 : State :=
  { brk := 0, start := 0, lgsize := 0, size := 0,
    avail := fun _ => zeroHdr, mem := fun _ => zeroHdr,
    bytes := fun _ => 0, inited := false, errno := 0 }

/-- Dereference a header pointer. -/
def readHdr (s : State) (p : Ptr) : Header :=
  match p with
  | Ptr.null => zeroHdr
  | Ptr.blk o => s.mem o
  | Ptr.sent k => s.avail k

/-- Store a whole header through a pointer (a store through NULL would be C
undefined behaviour; it is ignored here and unreachable in the theorems). -/
def writeHdr (s : State) (p : Ptr) (h : Header) : State :=
  match p with
  | Ptr.null => s
  | Ptr.blk o => { s with mem := fun x => if x = o then h else s.mem x }
  | Ptr.sent k => { s with avail := fun x => if x = k then h else s.avail x }

/-- `p->tag = v`. -/
def setTag (s : State) (p : Ptr) (v : Int) : State :=
  writeHdr s p { readHdr s p with tag := v }

/-- `p->kval = v`. -/
def setKval (s : State) (p : Ptr) (v : Nat) : State :=
  writeHdr s p { readHdr s p with kval := v }

/-- `p->next = v`. -/
def setNext (s : State) (p : Ptr) (v : Ptr) : State :=
  writeHdr s p { readHdr s p with next := v }

/-- `p->prev = v`. -/
def setPrev (s : State) (p : Ptr) (v : Ptr) : State :=
  writeHdr s p { readHdr s p with prev := v }

/-- Byte-offset pointer arithmetic `p + d` (defined on arena pointers; the
code only applies it to them). -/
def ptrAdd (p : Ptr) (d : Nat) : Ptr :=
  match p with
  | Ptr.blk o => Ptr.blk (o + d)
  | x => x

/-- Byte-offset pointer arithmetic `p - d`. -/
def ptrSub (p : Ptr) (d : Nat) : Ptr :=
  match p with
  | Ptr.blk o => Ptr.blk (o - d)
  | x => x

/-- Pointer comparison `a < b` (the code only compares arena pointers). -/
def ptrLt (a b : Ptr) : Bool :=
  match a, b with
  | Ptr.blk x, Ptr.blk y => x < y
  | _, _ => false

/-- The modelled `sbrk`: bump the break and return the old break. -/
def sbrk (n : Nat) (s : State) : Nat × State :=
  (s.brk, { s with brk := s.brk + n })

/-- `buddy_init` from buddy.c.  Returns the C return value (`errno` on the
size check failing, `TRUE = 1` on success) and the new state.  The for-loop
that seeds `avail[0..kval)` is rendered as a pointwise function update (each
index is written exactly once).  Note that the function does NOT consult the
`initialized` flag, and does NOT touch `avail[kval].tag`, `avail[kval].kval`,
or any `avail[i]` with `i > kval`. -/
def buddy_init (size : Nat) (s : State) : Int × State :=
  if size > MAX_SIZE then
    (ENOMEM, { s with errno := ENOMEM })
  else
    let sz := if size = 0 then DEFAULT_MAX_MEM_SIZE else 2 ^ get_kval size
    let ptr := (sbrk sz s).1
    let s := (sbrk sz s).2
    -- the freshly acquired arena: reset the header cells and bytes maps
    let s := { s with size := sz, start := ptr,
                      mem := fun _ => zeroHdr, bytes := fun _ => 0 }
    let kval := get_kval s.size
    let s := { s with lgsize := kval }
    -- for (i = 0; i < kval; i++) { avail[i] = self-looped UNUSED sentinel }
    let s := { s with avail := fun i =>
                 if i < kval then ⟨UNUSED, i, Ptr.sent i, Ptr.sent i⟩
                 else s.avail i }
    -- avail[kval].next = avail[kval].prev = (block_header *) mempool.start
    let s := setNext s (Ptr.sent kval) (Ptr.blk 0)
    let s := setPrev s (Ptr.sent kval) (Ptr.blk 0)
    -- avail[kval].next->tag = FREE; ->kval = kval; ->next = ->prev = &avail[kval]
    let s := setTag s (readHdr s (Ptr.sent kval)).next FREE
    let s := setKval s (readHdr s (Ptr.sent kval)).next kval
    let s := setNext s (readHdr s (Ptr.sent kval)).next (Ptr.sent kval)
    let s := setPrev s (readHdr s (Ptr.sent kval)).next (Ptr.sent kval)
    (1, { s with inited := true })

/-- The block search of `buddy_malloc` (step 1 of Algorithm R):
`while (j <= lgsize && free_block == NULL) { if (avail[j].next != &avail[j]) break; j++ }`.
Returns the first `j` in `[j, lgsize]` whose list head differs from the
sentinel's own address.  Fuel bounds the iterations. -/
def availSearch (s : State) : Nat → Nat → Option Nat
  | 0, _ => none
  | fuel + 1, j =>
    if j ≤ s.lgsize then
      if (s.avail j).next ≠ Ptr.sent j then some j
      else availSearch s fuel (j + 1)
    else none

/-- The split loop of `buddy_malloc` (step 4 of Algorithm R):
`while (j != kval) { j--; P = L + 2^j; P->tag = FREE; P->kval = j;
P->next = P->prev = &avail[j]; avail[j].next = avail[j].prev = P; }`. -/
def splitLoop (L : Ptr) (kval : Nat) : Nat → Nat → State → State
  | 0, _, s => s
  | fuel + 1, j, s =>
    if j = kval then s
    else
      let j := j - 1
      let P := ptrAdd L (2 ^ j)
      let s := setTag s P FREE
      let s := setKval s P j
      let s := setNext s P (Ptr.sent j)
      let s := setPrev s P (Ptr.sent j)
      let s := setNext s (Ptr.sent j) P
      let s := setPrev s (Ptr.sent j) P
      splitLoop L kval fuel j s

/-- The body of `buddy_malloc` after the lazy-initialization check. -/
def buddy_malloc_core (size : Nat) (s : State) : Option Ptr × State :=
  let kval := get_kval (HDR_SIZE + size)
  if kval > s.lgsize then
    (none, { s with errno := ENOMEM })
  else
    match availSearch s (s.lgsize + 1 - kval) kval with
    | none => (none, { s with errno := ENOMEM })
    | some j0 =>
      let fb := (s.avail j0).next
      -- j = free_block->kval  (line 165)
      let j := (readHdr s fb).kval
      -- step 2 (remove from list), lines 169-174
      let L := (s.avail j).next
      let P := (readHdr s L).next
      let s := setNext s (Ptr.sent j) P
      let s := setPrev s P (Ptr.sent j)
      let s := setTag s L RESERVED
      let s := setKval s L kval
      -- steps 3-4 (split), lines 179-186
      let s := splitLoop L kval (j + 1) j s
      (some (ptrAdd L HDR_SIZE), s)

/-- `buddy_malloc` from buddy.c, including the lazy `buddy_init(0)` call. -/
def buddy_malloc (size : Nat) (s : State) : Option Ptr × State :=
  if s.inited = false then
    let r := buddy_init 0 s
    if r.1 ≠ 1 then (none, { r.2 with errno := ENOMEM })
    else buddy_malloc_core size r.2
  else buddy_malloc_core size s

/-- `find_buddy` from buddy.c: flip bit `L->kval` of the offset of `L` from
`mempool.start` (offsets are relative to `start` in this model).  Note that
the mask comes from the *stored* `L->kval`, not from a loop variable. -/
def find_buddy (s : State) (L : Ptr) : Ptr :=
  match L with
  | Ptr.blk off => Ptr.blk (off ^^^ 2 ^ (s.mem off).kval)
  | _ => Ptr.null

/-- The coalescing loop of `buddy_free` (Algorithm S).  Returns the final
block pointer, the final order and the final state; `buddy_free` keeps only
the state.  Each C statement is translated in order, re-reading memory
exactly where the C code does. -/
def freeLoop : Nat → Ptr → Nat → State → Ptr × Nat × State
  | 0, L, kval, s => (L, kval, s)
  | fuel + 1, L, kval, s =>
    let buddy := find_buddy s L
    if kval = s.lgsize ∨ (readHdr s buddy).tag = RESERVED ∨
       ((readHdr s buddy).tag = FREE ∧ (readHdr s buddy).kval ≠ kval) then
      -- 3. [put on list], lines 277-283
      let s := setTag s L FREE
      let b2 := (s.avail kval).next
      let s := setNext s L b2
      let s := setPrev s b2 L
      let s := setKval s L kval
      let s := setPrev s L (Ptr.sent kval)
      let s := setNext s (Ptr.sent kval) L
      (L, kval, s)
    else
      -- 2. [combine with buddy], lines 287-296
      let bh := readHdr s buddy
      let s := setNext s bh.prev bh.next
      let bh2 := readHdr s buddy
      let s := setPrev s bh2.next bh2.prev
      let kval := kval + 1
      let L := if ptrLt buddy L then buddy else L
      let s := setKval s L kval
      freeLoop fuel L kval s

/-- `buddy_free` from buddy.c. -/
def buddy_free (p : Ptr) (s : State) : State :=
  if p = Ptr.null ∨ s.inited = false then s
  else
    let L := ptrSub p HDR_SIZE
    let kval := (readHdr s L).kval
    (freeLoop (s.lgsize + 1) L kval s).2.2

/-- `memset(p, 0, len)`: `none` models the undefined behaviour of a NULL
destination; otherwise the byte range is zeroed. -/
def memsetZero (p : Ptr) (len : Nat) (s : State) : Option State :=
  match p with
  | Ptr.null => none
  | Ptr.blk d =>
    some { s with bytes := fun a => if d ≤ a ∧ a < d + len then 0 else s.bytes a }
  | Ptr.sent _ => some s

/-- `memcpy(dst, src, len)`: `none` models the undefined behaviour of a NULL
operand; otherwise `len` bytes are copied. -/
def memcpy (dst src : Ptr) (len : Nat) (s : State) : Option State :=
  match dst, src with
  | Ptr.null, _ => none
  | _, Ptr.null => none
  | Ptr.blk d, Ptr.blk sc =>
    some { s with bytes := fun a => if d ≤ a ∧ a < d + len then s.bytes (sc + (a - d)) else s.bytes a }
  | _, _ => some s

/-- `buddy_calloc` from buddy.c: `addr = buddy_malloc(size*nmemb);
memset(addr, 0, nmemb*size); return addr;` — note that `memset` is invoked
whether or not the allocation succeeded.  `none` = undefined behaviour. -/
def buddy_calloc (nmemb size : Nat) (s : State) : Option (Option Ptr × State) :=
  let r := buddy_malloc (size * nmemb) s
  match memsetZero (r.1.getD Ptr.null) (nmemb * size) r.2 with
  | none => none
  | some s2 => some (r.1, s2)

/-- `buddy_realloc` from buddy.c.  `none` = undefined behaviour (the
`memcpy` through the NULL result of a failed internal `buddy_malloc`). -/
def buddy_realloc (p : Ptr) (size : Nat) (s : State) : Option (Option Ptr × State) :=
  if p = Ptr.null ∧ size = 0 then
    some (none, { s with errno := ENOMEM })
  else if size = 0 then
    some (none, buddy_free p s)
  else if p = Ptr.null then
    some (buddy_malloc size s)
  else
    let block := ptrSub p HDR_SIZE
    let kval := get_kval (size + HDR_SIZE)
    if kval = (readHdr s block).kval then
      some (some p, s)
    else
      let r := buddy_malloc size s
      match memcpy (r.1.getD Ptr.null) p size r.2 with
      | none => none
      | some s2 => some (r.1, buddy_free p s2)

/-! ### Arithmetic facts about `get_kval` -/

/-- Loop invariant of `get_kval`: starting from `curr = 2^(kval-1)` with
enough fuel, the loop computes (after the final `- 1`) the least exponent
`≥ kval - 1` whose power of two reaches `size`. -/
theorem gkLoop_spec (fuel : Nat) : ∀ (kval size : Nat), 1 ≤ kval →
    size ≤ 2 ^ (kval - 1) * 2 ^ fuel →
    size ≤ 2 ^ (gkLoop fuel (2 ^ (kval - 1)) kval size - 1) ∧
    (∀ j, kval - 1 ≤ j → size ≤ 2 ^ j → gkLoop fuel (2 ^ (kval - 1)) kval size - 1 ≤ j) := by
  induction fuel with
  | zero =>
    intro kval size _ hs
    simp only [gkLoop, pow_zero, mul_one] at hs ⊢
    exact ⟨hs, fun j hj _ => hj⟩
  | succ fuel ih =>
    intro kval size hk hs
    by_cases hlt : 2 ^ (kval - 1) < size
    · have hcurr : 2 ^ (kval - 1) * 2 = 2 ^ (kval + 1 - 1) := by
        rw [Nat.add_sub_cancel, ← pow_succ]
        congr 1
        omega
      have hrec : gkLoop (fuel + 1) (2 ^ (kval - 1)) kval size
          = gkLoop fuel (2 ^ (kval + 1 - 1)) (kval + 1) size := by
        simp only [gkLoop, if_pos hlt, hcurr]
      have hs' : size ≤ 2 ^ (kval + 1 - 1) * 2 ^ fuel := by
        rw [← hcurr]
        calc size ≤ 2 ^ (kval - 1) * 2 ^ (fuel + 1) := hs
          _ = 2 ^ (kval - 1) * 2 * 2 ^ fuel := by ring
      obtain ⟨h1, h2⟩ := ih (kval + 1) size (by omega) hs'
      rw [hrec]
      refine ⟨h1, fun j hj hsj => ?_⟩
      rcases Nat.lt_or_ge j kval with hjk | hjk
      · exfalso
        have : j = kval - 1 := by omega
        subst this
        omega
      · exact h2 j (by omega) hsj
    · have hstop : gkLoop (fuel + 1) (2 ^ (kval - 1)) kval size = kval := by
        simp only [gkLoop, if_neg hlt]
      rw [hstop]
      exact ⟨by omega, fun j hj _ => hj⟩

/-- `2 ^ get_kval n ≥ n`: the loop stops only once `curr` reaches `size`. -/
theorem get_kval_ge (n : Nat) : n ≤ 2 ^ get_kval n := by
  have h := gkLoop_spec n 1 n le_rfl
    (by simpa using Nat.le_of_lt (Nat.lt_two_pow n))
  simpa [get_kval] using h.1

/-- Minimality: `get_kval n` is the least exponent whose power reaches `n`. -/
theorem get_kval_min {n j : Nat} (h : n ≤ 2 ^ j) : get_kval n ≤ j := by
  have hs := gkLoop_spec n 1 n le_rfl
    (by simpa using Nat.le_of_lt (Nat.lt_two_pow n))
  have := hs.2 j (Nat.zero_le j) h
  simpa [get_kval] using this

/-- `get_kval` is exact on powers of two. -/
theorem get_kval_two_pow (k : Nat) : get_kval (2 ^ k) = k := by
  refine le_antisymm (get_kval_min le_rfl) ?_
  have h := get_kval_ge (2 ^ k)
  exact (Nat.pow_le_pow_iff_right (by norm_num)).mp h

/-- Tightness: for `n ≥ 1` the rounded size is below `2n`. -/
theorem get_kval_tight {n : Nat} (h : 1 ≤ n) : 2 ^ get_kval n < 2 * n := by
  cases hg : get_kval n with
  | zero => simpa using by omega
  | succ g =>
    have hlt : ¬ n ≤ 2 ^ g := by
      intro hle
      have := get_kval_min hle
      omega
    have : 2 ^ g < n := by omega
    calc 2 ^ (g + 1) = 2 * 2 ^ g := by ring
      _ < 2 * n := by omega

/-- `get_kval` is monotone. -/
theorem get_kval_mono {a b : Nat} (h : a ≤ b) : get_kval a ≤ get_kval b :=
  get_kval_min (le_trans h (get_kval_ge b))


/-! ### Characterization of `buddy_init` on positive sizes -/

/-- The state a successful `buddy_init` of positive size builds (with
`g = get_kval size`): arena of `2^g` bytes at the old break, sentinels
seeded below `g`, `avail[g]`'s links pointed at the arena block (tag and
kval left as they were), everything above untouched, and the single
arena-wide free block at offset 0. -/
def initResult (g : Nat) (s : State) : State :=
  { brk := s.brk + 2 ^ g, start := s.brk, lgsize := g, size := 2 ^ g,
    avail := fun i =>
      if i = g then { s.avail g with next := Ptr.blk 0, prev := Ptr.blk 0 }
      else if i < g then ⟨UNUSED, i, Ptr.sent i, Ptr.sent i⟩
      else s.avail i,
    mem := fun o => if o = 0 then ⟨FREE, g, Ptr.sent g, Ptr.sent g⟩ else zeroHdr,
    bytes := fun _ => 0, inited := true, errno := s.errno }

set_option maxHeartbeats 1000000 in
theorem buddy_init_eq (size : Nat) (s : State) (h1 : 0 < size) (h2 : size ≤ MAX_SIZE) :
    buddy_init size s = (1, initResult (get_kval size) s) := by
  have hle : ¬ size > MAX_SIZE := not_lt.mpr h2
  have hne : ¬ size = 0 := by omega
  have hgg : get_kval (2 ^ get_kval size) = get_kval size := get_kval_two_pow _
  simp only [buddy_init, if_neg hle, if_neg hne, sbrk, hgg, setNext, setPrev, setTag,
    setKval, readHdr, writeHdr, initResult, lt_self_iff_false, if_false, if_true,
    Prod.mk.injEq, State.mk.injEq, true_and]
  refine ⟨funext fun i => ?_, funext fun o => ?_, trivial⟩
  · by_cases hig : i = get_kval size
    · simp [hig]
    · by_cases hlt : i < get_kval size
      · simp [hig, hlt]
      · simp [hig, hlt]
  · by_cases ho : o = 0
    · simp [ho]
    · simp [ho]

/-! ### Example states used by concrete witnesses -/

/-- A 64-byte arena (`m = 6`) initialized from the pristine state. -/
def exA : State := (buddy_init 64 st0).2

/-- `exA` after `buddy_malloc 8` (which reserves the order-5 block at
offset 0 and leaves its order-5 buddy at offset 32 free); the returned
user pointer is `Ptr.blk 24`. -/
def exB : State := (buddy_malloc 8 exA).2

/-! ### C4: sentinel-table initialization -/

/-- C4 counterexample.  The claim says `init` makes every `avail[k]`,
`0 ≤ k < MAX_ORDER`, a sentinel with `tag = SENTINEL` and `order = k`.
In fact the seeding loop stops at `k = m`: after `init(8)` (so `m = 3`,
from zero-initialized static storage), `avail[3].tag` is still `0`
(`= RESERVED`), not `SENTINEL = -1`, and `avail[5].order = 0 ≠ 5`. -/
theorem C4_cex :
    (buddy_init 8 st0).2.lgsize = 3 ∧
    ((buddy_init 8 st0).2.avail 3).tag ≠ UNUSED ∧
    ((buddy_init 8 st0).2.avail 5).kval ≠ 5 := by
  decide

/-- C4 as amended: a successful `init(size)` (`0 < size ≤ MAX_SIZE`) sets
`m = get_kval size`, initializes `avail[k]` for every `k < m` as an empty
sentinel with `tag = SENTINEL`, `order = k` and `next = prev = self`,
links the single arena-wide `FREE` block of order `m` into `avail[m]`
(next and prev only), and leaves `avail[m].tag`, `avail[m].order` and all
entries above `m` unchanged; hence `avail[k].tag = SENTINEL ∧
avail[k].order = k` holds exactly for the `k < m` after init. -/
theorem C4_amended (size : Nat) (s : State) (h1 : 0 < size) (h2 : size ≤ MAX_SIZE) :
    (buddy_init size s).2.lgsize = get_kval size ∧
    (∀ k, k < get_kval size →
      (buddy_init size s).2.avail k = ⟨UNUSED, k, Ptr.sent k, Ptr.sent k⟩) ∧
    ((buddy_init size s).2.avail (get_kval size)).next = Ptr.blk 0 ∧
    ((buddy_init size s).2.avail (get_kval size)).prev = Ptr.blk 0 ∧
    ((buddy_init size s).2.avail (get_kval size)).tag = (s.avail (get_kval size)).tag ∧
    ((buddy_init size s).2.avail (get_kval size)).kval = (s.avail (get_kval size)).kval ∧
    (∀ k, get_kval size < k → (buddy_init size s).2.avail k = s.avail k) ∧
    (buddy_init size s).2.mem 0 =
      ⟨FREE, get_kval size, Ptr.sent (get_kval size), Ptr.sent (get_kval size)⟩ := by
  rw [buddy_init_eq size s h1 h2]
  refine ⟨rfl, ?_, ?_, ?_, ?_, ?_, ?_, ?_⟩
  · intro k hk
    simp [initResult, Nat.ne_of_lt hk, hk]
  · simp [initResult]
  · simp [initResult]
  · simp [initResult]
  · simp [initResult]
  · intro k hk
    simp [initResult, Nat.ne_of_gt hk, Nat.lt_asymm hk]
  · simp [initResult]

/-- Closed witness for `C4_amended` at `size = 8` from the pristine state. -/
theorem C4_amended_witness :
    (0 < 8 ∧ 8 ≤ MAX_SIZE) ∧
    (buddy_init 8 st0).2.avail 2 = ⟨UNUSED, 2, Ptr.sent 2, Ptr.sent 2⟩ :=
  ⟨⟨by decide, by decide⟩, (C4_amended 8 st0 (by decide) (by decide)).2.1 2 (by decide)⟩

/-! ### C5: rounding of the init size -/

/-- C5 counterexample.  The claim says the requested size is rounded DOWN
to the nearest power of two; any round-down result would be `≤ 3`, but
`init(3)` acquires an arena of 4 bytes. -/
theorem C5_cex :
    (buddy_init 3 st0).2.size = 4 ∧ ¬ (buddy_init 3 st0).2.size ≤ 3 := by
  refine ⟨rfl, ?_⟩
  decide

/-- C5 as amended: for `0 < size ≤ 2^(MAX_ORDER-1)`, `init(size)` acquires
an arena of `2^(get_kval size)` bytes — the requested size rounded UP to
the nearest power of two (unchanged when `size` is already a power of
two, since `size ≤ arena < 2*size`) — and sets `m` to that order. -/
theorem C5_amended (size : Nat) (s : State) (h1 : 0 < size) (h2 : size ≤ MAX_SIZE) :
    (buddy_init size s).2.size = 2 ^ get_kval size ∧
    size ≤ (buddy_init size s).2.size ∧
    (buddy_init size s).2.size < 2 * size ∧
    (buddy_init size s).2.lgsize = get_kval size := by
  rw [buddy_init_eq size s h1 h2]
  exact ⟨rfl, get_kval_ge size, get_kval_tight h1, rfl⟩

/-- Closed witness for `C5_amended` at `size = 3`. -/
theorem C5_amended_witness :
    (0 < 3 ∧ 3 ≤ MAX_SIZE) ∧ (buddy_init 3 st0).2.size = 2 ^ get_kval 3 :=
  ⟨⟨by decide, by decide⟩, (C5_amended 3 st0 (by decide) (by decide)).1⟩

/-! ### C6: a second `init` is not a no-op -/

/-- Header stores never move the program break. -/
theorem writeHdr_brk (s : State) (p : Ptr) (h : Header) : (writeHdr s p h).brk = s.brk := by
  cases p <;> rfl

/-- The split loop never moves the program break. -/
theorem splitLoop_brk (L : Ptr) (kval : Nat) :
    ∀ fuel j s, (splitLoop L kval fuel j s).brk = s.brk := by
  intro fuel
  induction fuel with
  | zero => intro j s; rfl
  | succ fuel ih =>
    intro j s
    rw [splitLoop]
    by_cases hj : j = kval
    · simp [hj]
    · simp only [if_neg hj]
      rw [ih]
      simp [setTag, setKval, setNext, setPrev, writeHdr_brk]

/-- `buddy_malloc_core` never moves the program break (it never acquires
memory). -/
theorem buddy_malloc_core_brk (n : Nat) (s : State) :
    (buddy_malloc_core n s).2.brk = s.brk := by
  unfold buddy_malloc_core
  by_cases hk : get_kval (HDR_SIZE + n) > s.lgsize
  · simp [hk]
  · simp only [if_neg hk]
    cases havS : availSearch s (s.lgsize + 1 - get_kval (HDR_SIZE + n)) (get_kval (HDR_SIZE + n)) with
    | none => simp
    | some j0 =>
      simp only []
      rw [splitLoop_brk]
      simp [setTag, setKval, setNext, setPrev, writeHdr_brk]

/-- C6 counterexample.  The claim says a second `init` call is a no-op
guarded by the already-initialized flag.  In fact `buddy_init` never reads
the flag: a second `init(8)` after a successful `init(8)` acquires a fresh
8-byte arena (the break advances from 8 to 16) and moves the arena base
from 0 to 8. -/
theorem C6_cex :
    (buddy_init 8 st0).2.inited = true ∧
    (buddy_init 8 (buddy_init 8 st0).2).2.start ≠ (buddy_init 8 st0).2.start ∧
    (buddy_init 8 (buddy_init 8 st0).2).2.brk = (buddy_init 8 st0).2.brk + 8 := by
  decide

/-- C6 as amended: `buddy_init` ignores the initialized flag.  A second
successful `init(size)` re-runs the whole initialization: it acquires a
fresh arena of `2^(get_kval size)` bytes at the current break (advancing
the break) and repoints the pool at it; the flag only guards the implicit
`init(0)` inside `reserve`, which indeed acquires nothing when the flag is
set. -/
theorem C6_amended (size n : Nat) (s : State) (hin : s.inited = true)
    (h1 : 0 < size) (h2 : size ≤ MAX_SIZE) :
    (buddy_init size s).2.start = s.brk ∧
    (buddy_init size s).2.brk = s.brk + 2 ^ get_kval size ∧
    (buddy_init size s).2.size = 2 ^ get_kval size ∧
    (buddy_init size s).2.lgsize = get_kval size ∧
    (buddy_malloc n s).2.brk = s.brk := by
  rw [buddy_init_eq size s h1 h2]
  refine ⟨rfl, rfl, rfl, rfl, ?_⟩
  rw [buddy_malloc, hin]
  simp [buddy_malloc_core_brk]

/-- Closed witness for `C6_amended` at `size = 8`, `n = 1` from `exA`. -/
theorem C6_amended_witness :
    (exA.inited = true ∧ 0 < 8 ∧ 8 ≤ MAX_SIZE) ∧
    (buddy_init 8 exA).2.start = exA.brk :=
  ⟨⟨by decide, by decide, by decide⟩,
    (C6_amended 8 1 exA (by decide) (by decide) (by decide)).1⟩

/-! ### C8: resize short-circuit -/

/-- C8: for non-null `p` and `n ≠ 0`, when `get_kval (n + sizeof(header))`
equals the order stored in `p`'s block header, `buddy_realloc p n` returns
`p` itself and the state completely unchanged. -/
theorem C8_resize_short_circuit (s : State) (p : Ptr) (n : Nat) (hp : p ≠ Ptr.null)
    (hn : n ≠ 0) (hk : get_kval (n + HDR_SIZE) = (readHdr s (ptrSub p HDR_SIZE)).kval) :
    buddy_realloc p n s = some (some p, s) := by
  simp [buddy_realloc, hp, hn, hk]

/-- Closed witness for `C8_resize_short_circuit`: in `exB` the block behind
user pointer `blk 24` has order 5 and `get_kval (8 + 24) = 5`, so
`resize(blk 24, 8)` returns the pointer and state unchanged. -/
theorem C8_witness : buddy_realloc (Ptr.blk 24) 8 exB = some (some (Ptr.blk 24), exB) :=
  C8_resize_short_circuit exB (Ptr.blk 24) 8 (by decide) (by decide) (by decide)

/-! ### C9: `zero_reserve` calls `memset` on the NULL result of a failed
reserve -/

/-- C9 evidence.  In the reachable state `exA` (64-byte arena),
`buddy_calloc 1 1024` makes `buddy_malloc (1024 * 1)` fail (order 11 > 6)
and then unconditionally calls `memset(NULL, 0, 1024)` — undefined
behaviour (modelled as `none`) instead of the claimed "returns null with
the out-of-memory error code set and writes to no memory". -/
theorem C9_bug_eval :
    (buddy_malloc (1024 * 1) exA).1 = none ∧
    (buddy_malloc (1024 * 1) exA).2.errno = ENOMEM ∧
    buddy_calloc 1 1024 exA = none := by
  refine ⟨by decide, by decide, ?_⟩
  rfl

/-! ### C10: the move path of resize can copy through NULL -/

/-- C10 counterexample.  In the reachable state `exB` (64-byte arena with
an order-5 block reserved at offset 0, user pointer `blk 24`),
`resize(blk 24, 100)` takes the move path (order 7 ≠ 5), the internal
`buddy_malloc 100` fails (7 > 6 = m), and the unconditional
`memcpy(NULL, p, 100)` writes through a null pointer — contradicting the
claim that the copy's destination is non-null in every reachable
execution of that path. -/
theorem C10_cex : buddy_realloc (Ptr.blk 24) 100 exB = none := by
  rfl

/-- C10 as amended: in the move path (`p` non-null, `n ≠ 0`, new order
different from the stored order) the copy and the release ARE performed
unconditionally, with the internal reserve's result as the copy's
destination — but that destination is null whenever the internal reserve
fails (as is reachable, see `C10_cex`), and the copy then writes through a
null pointer (undefined behaviour, `none`). -/
theorem C10_amended (s : State) (p : Ptr) (n : Nat)
    (hp : p ≠ Ptr.null) (hn : n ≠ 0)
    (hk : get_kval (n + HDR_SIZE) ≠ (readHdr s (ptrSub p HDR_SIZE)).kval) :
    ((buddy_malloc n s).1 = none → buddy_realloc p n s = none) ∧
    (∀ a s1, buddy_malloc n s = (some a, s1) →
      buddy_realloc p n s =
        (memcpy a p n s1).map (fun s2 => (some a, buddy_free p s2))) := by
  constructor
  · intro hm
    rcases hr : buddy_malloc n s with ⟨a, s1⟩
    rw [hr] at hm
    simp only at hm
    subst hm
    simp [buddy_realloc, hp, hn, hk, hr, memcpy]
  · intro a s1 hr
    simp only [buddy_realloc, hp, hn, hk, hr]
    simp [hp, hn]
    cases memcpy a p n s1 <;> simp

/-- Closed witness for `C10_amended`: `resize(blk 24, 200)` in `exB` takes
the move path, the internal reserve fails, and the copy goes through NULL. -/
theorem C10_amended_witness : buddy_realloc (Ptr.blk 24) 200 exB = none :=
  (C10_amended exB (Ptr.blk 24) 200 (by decide) (by decide) (by decide)).1 (by decide)

/-! ### C7: failure condition and failure atomicity of `reserve` -/

/-- If `availSearch` is given enough fuel and returns `none`, every list in
`[j, lgsize]` is empty (head = own sentinel), and conversely. -/
theorem availSearch_none_iff (s : State) :
    ∀ fuel j, s.lgsize + 1 - j ≤ fuel →
      (availSearch s fuel j = none ↔
        ∀ i, j ≤ i → i ≤ s.lgsize → (s.avail i).next = Ptr.sent i) := by
  intro fuel
  induction fuel with
  | zero =>
    intro j hf
    constructor
    · intro _ i hji hi
      omega
    · intro _
      rfl
  | succ fuel ih =>
    intro j hf
    rw [availSearch]
    by_cases hj : j ≤ s.lgsize
    · simp only [if_pos hj]
      by_cases hne : (s.avail j).next ≠ Ptr.sent j
      · simp only [if_pos hne]
        constructor
        · intro h
          exact absurd h (by simp)
        · intro h
          exact absurd (h j le_rfl hj) hne
      · simp only [if_neg hne]
        push_neg at hne
        rw [ih (j + 1) (by omega)]
        constructor
        · intro h i hji hi
          rcases Nat.eq_or_lt_of_le hji with rfl | hlt
          · exact hne
          · exact h i hlt hi
        · intro h i hji hi
          exact h i (by omega) hi
    · simp only [if_neg hj]
      constructor
      · intro _ i hji hi
        omega
      · intro _
        trivial

/-- If `availSearch` returns `some j0`, then `j0` is in range and the list
at `j0` is non-empty. -/
theorem availSearch_some (s : State) :
    ∀ fuel j j0, availSearch s fuel j = some j0 →
      j ≤ j0 ∧ j0 ≤ s.lgsize ∧ (s.avail j0).next ≠ Ptr.sent j0 := by
  intro fuel
  induction fuel with
  | zero =>
    intro j j0 h
    exact absurd h (by simp [availSearch])
  | succ fuel ih =>
    intro j j0 h
    rw [availSearch] at h
    by_cases hj : j ≤ s.lgsize
    · rw [if_pos hj] at h
      by_cases hne : (s.avail j).next ≠ Ptr.sent j
      · rw [if_pos hne] at h
        obtain rfl : j = j0 := by simpa using h
        exact ⟨le_rfl, hj, hne⟩
      · rw [if_neg hne] at h
        obtain ⟨h1, h2, h3⟩ := ih (j + 1) j0 h
        exact ⟨by omega, h2, h3⟩
    · rw [if_neg hj] at h
      exact absurd h (by simp)

/-- C7: on an initialized allocator, `reserve(n)` fails exactly when the
target order `k = get_kval(sizeof(header) + n)` exceeds `m`, or every free
list `avail[j]`, `k ≤ j ≤ m`, is empty; and every failure returns NULL,
sets `errno = ENOMEM`, and leaves everything else (free lists, headers,
bytes, pool fields) untouched. -/
theorem C7_reserve_failure (n : Nat) (s : State) (hin : s.inited = true) :
    ((buddy_malloc n s).1 = none ↔
      (s.lgsize < get_kval (HDR_SIZE + n) ∨
       ∀ j, get_kval (HDR_SIZE + n) ≤ j → j ≤ s.lgsize → (s.avail j).next = Ptr.sent j)) ∧
    ((buddy_malloc n s).1 = none → (buddy_malloc n s).2 = { s with errno := ENOMEM }) := by
  have hml : buddy_malloc n s = buddy_malloc_core n s := by
    rw [buddy_malloc, hin]
    simp
  rw [hml]
  unfold buddy_malloc_core
  by_cases hk : get_kval (HDR_SIZE + n) > s.lgsize
  · simp only [if_pos hk]
    exact ⟨iff_of_true (by trivial) (Or.inl hk), fun _ => by trivial⟩
  · simp only [if_neg hk]
    cases hs : availSearch s (s.lgsize + 1 - get_kval (HDR_SIZE + n)) (get_kval (HDR_SIZE + n)) with
    | none =>
      have hempty := (availSearch_none_iff s (s.lgsize + 1 - get_kval (HDR_SIZE + n))
        (get_kval (HDR_SIZE + n)) le_rfl).mp hs
      exact ⟨iff_of_true (by rfl) (Or.inr hempty), fun _ => by rfl⟩
    | some j0 =>
      obtain ⟨hj1, hj2, hj3⟩ := availSearch_some s _ _ _ hs
      simp only []
      refine ⟨iff_of_false (by simp) ?_, fun h => absurd h (by simp)⟩
      rintro (h | hall)
      · omega
      · exact hj3 (hall j0 hj1 hj2)

/-- Closed witness for `C7_reserve_failure`: `reserve(1000)` on the 64-byte
arena `exA` fails (order 10 > 6) and only `errno` changes. -/
theorem C7_witness : (buddy_malloc 1000 exA).2 = { exA with errno := ENOMEM } :=
  (C7_reserve_failure 1000 exA (by decide)).2 (by decide)

/-! ### C1: the coalescing loop of `release` follows the claimed algorithm -/

/-- Flipping a clear bit adds the corresponding power of two. -/
theorem xor_two_pow_of_testBit_false :
    ∀ (k o : Nat), o.testBit k = false → o ^^^ 2 ^ k = o + 2 ^ k := by
  intro k
  induction k with
  | zero =>
    intro o h
    rw [Nat.testBit_zero] at h
    have hmod : o % 2 = 0 := by
      rcases Nat.mod_two_eq_zero_or_one o with h0 | h1
      · exact h0
      · simp [h1] at h
    obtain ⟨m, rfl⟩ : ∃ m, o = 2 * m := ⟨o / 2, by omega⟩
    have hx := Nat.xor_bit false m true 0
    simpa [Nat.bit_val] using hx
  | succ k ih =>
    intro o h
    have hd : o.div2 = o / 2 := Nat.div2_val o
    have hbit : Nat.bit o.bodd o.div2 = o := Nat.bit_decomp o
    have h2 : (2 : Nat) ^ (k + 1) = Nat.bit false (2 ^ k) := by
      simp [Nat.bit_val, pow_succ]
      ring
    have hih : o.div2 ^^^ 2 ^ k = o.div2 + 2 ^ k := by
      apply ih
      rw [hd]
      rw [Nat.testBit_succ] at h
      exact h
    calc o ^^^ 2 ^ (k + 1)
        = Nat.bit o.bodd o.div2 ^^^ Nat.bit false (2 ^ k) := by rw [hbit, ← h2]
      _ = Nat.bit (o.bodd != false) (o.div2 ^^^ 2 ^ k) := Nat.xor_bit _ _ _ _
      _ = Nat.bit o.bodd (o.div2 + 2 ^ k) := by rw [hih]; simp
      _ = o + 2 ^ (k + 1) := by
          rw [Nat.bit_val]
          have ho : o = 2 * o.div2 + o.bodd.toNat := by
            conv_lhs => rw [← hbit, Nat.bit_val]
          have hpow : (2 : Nat) ^ (k + 1) = 2 * 2 ^ k := by ring
          omega

/-- The XOR buddy address is the offset plus or minus `2^k`. -/
theorem xor_two_pow_cases (o k : Nat) :
    o ^^^ 2 ^ k = o + 2 ^ k ∨ (o ^^^ 2 ^ k) + 2 ^ k = o := by
  cases hb : o.testBit k with
  | false => exact Or.inl (xor_two_pow_of_testBit_false k o hb)
  | true =>
    right
    have h2 : (o ^^^ 2 ^ k).testBit k = false := by
      simp [Nat.testBit_xor, hb]
    have hstep := xor_two_pow_of_testBit_false k (o ^^^ 2 ^ k) h2
    rw [Nat.xor_cancel_right] at hstep
    omega

/-- The buddy offset lies outside `[o, o + 2^k)`. -/
theorem xor_two_pow_outside {o k x : Nat} (hx1 : o ≤ x) (hx2 : x < o + 2 ^ k) :
    o ^^^ 2 ^ k ≠ x := by
  rcases xor_two_pow_cases o k with h | h <;> omega

/-- Modelled from the claim's description of `release(p)` (spec section
4.4), as the refinement partner of `freeLoop`: repeat — compute the buddy
of the current block `L` at order `k` as `start + ((L − start) XOR 2^k)`
(with the loop order `k`, not a stored field); if `k = m`, or the buddy's
tag is `RESERVED`, or the buddy's tag is `FREE` with a different order,
insert the block at the head of `avail[k]` with tag `FREE` and order `k`
and stop; otherwise detach the buddy from its list, move the block to
`min(L, buddy)`, increment `k`, and repeat.  Unlike the code it performs
no intermediate `L->kval` bookkeeping during merges. -/
def releaseSpecLoop : Nat → Ptr → Nat → State → Ptr × Nat × State
  | 0, L, kval, s => (L, kval, s)
  | fuel + 1, L, kval, s =>
    let buddy := match L with
      | Ptr.blk off => Ptr.blk (off ^^^ 2 ^ kval)
      | _ => Ptr.null
    if kval = s.lgsize ∨ (readHdr s buddy).tag = RESERVED ∨
       ((readHdr s buddy).tag = FREE ∧ (readHdr s buddy).kval ≠ kval) then
      let s := setTag s L FREE
      let b2 := (s.avail kval).next
      let s := setNext s L b2
      let s := setPrev s b2 L
      let s := setKval s L kval
      let s := setPrev s L (Ptr.sent kval)
      let s := setNext s (Ptr.sent kval) L
      (L, kval, s)
    else
      let bh := readHdr s buddy
      let s := setNext s bh.prev bh.next
      let bh2 := readHdr s buddy
      let s := setPrev s bh2.next bh2.prev
      let kval := kval + 1
      let L := if ptrLt buddy L then buddy else L
      releaseSpecLoop fuel L kval s

/-- Two states that coincide on every component and every header field,
except possibly the `kval` fields of header cells at offsets in `S` (the
scratch writes `L->kval = kval` the code performs during merges). -/
def AgreeX (S : Nat → Prop) (s1 s2 : State) : Prop :=
  s1.brk = s2.brk ∧ s1.start = s2.start ∧ s1.lgsize = s2.lgsize ∧ s1.size = s2.size ∧
  s1.avail = s2.avail ∧ s1.bytes = s2.bytes ∧ s1.inited = s2.inited ∧ s1.errno = s2.errno ∧
  ∀ o, (s1.mem o).tag = (s2.mem o).tag ∧ (s1.mem o).next = (s2.mem o).next ∧
       (s1.mem o).prev = (s2.mem o).prev ∧ (¬ S o → (s1.mem o).kval = (s2.mem o).kval)

theorem AgreeX_refl (S : Nat → Prop) (s : State) : AgreeX S s s :=
  ⟨rfl, rfl, rfl, rfl, rfl, rfl, rfl, rfl, fun _ => ⟨rfl, rfl, rfl, fun _ => rfl⟩⟩

theorem AgreeX_mono {S T : Nat → Prop} {s1 s2 : State} (h : AgreeX S s1 s2)
    (hST : ∀ o, S o → T o) : AgreeX T s1 s2 := by
  obtain ⟨h1, h2, h3, h4, h5, h6, h7, h8, h9⟩ := h
  exact ⟨h1, h2, h3, h4, h5, h6, h7, h8, fun o =>
    ⟨(h9 o).1, (h9 o).2.1, (h9 o).2.2.1, fun hT => (h9 o).2.2.2 fun hS => hT (hST o hS)⟩⟩

/-- Reads of tag/next/prev through any pointer agree. -/
theorem AgreeX_read_tnp {S : Nat → Prop} {s1 s2 : State} (h : AgreeX S s1 s2) (p : Ptr) :
    (readHdr s1 p).tag = (readHdr s2 p).tag ∧ (readHdr s1 p).next = (readHdr s2 p).next ∧
    (readHdr s1 p).prev = (readHdr s2 p).prev := by
  obtain ⟨h1, h2, h3, h4, h5, h6, h7, h8, h9⟩ := h
  cases p with
  | null => exact ⟨rfl, rfl, rfl⟩
  | blk o => exact ⟨(h9 o).1, (h9 o).2.1, (h9 o).2.2.1⟩
  | sent k =>
    show (s1.avail k).tag = (s2.avail k).tag ∧ (s1.avail k).next = (s2.avail k).next ∧
      (s1.avail k).prev = (s2.avail k).prev
    rw [h5]
    exact ⟨rfl, rfl, rfl⟩

/-- Reads of kval agree as long as the target is not a scratch cell. -/
theorem AgreeX_read_kval {S : Nat → Prop} {s1 s2 : State} (h : AgreeX S s1 s2) (p : Ptr)
    (hp : ∀ o, p = Ptr.blk o → ¬ S o) :
    (readHdr s1 p).kval = (readHdr s2 p).kval := by
  obtain ⟨h1, h2, h3, h4, h5, h6, h7, h8, h9⟩ := h
  cases p with
  | null => rfl
  | blk o => exact (h9 o).2.2.2 (hp o rfl)
  | sent k =>
    show (s1.avail k).kval = (s2.avail k).kval
    rw [h5]

/-- Master lemma: writing headers that agree on tag/next/prev (and on kval
when the target is not scratch, and always when the target is a sentinel)
preserves the agreement. -/
theorem AgreeX_writeHdr {S : Nat → Prop} {s1 s2 : State} (h : AgreeX S s1 s2) (p : Ptr)
    {g1 g2 : Header} (htag : g1.tag = g2.tag) (hnext : g1.next = g2.next)
    (hprev : g1.prev = g2.prev)
    (hkb : ∀ o, p = Ptr.blk o → ¬ S o → g1.kval = g2.kval)
    (hks : ∀ k, p = Ptr.sent k → g1.kval = g2.kval) :
    AgreeX S (writeHdr s1 p g1) (writeHdr s2 p g2) := by
  obtain ⟨h1, h2, h3, h4, h5, h6, h7, h8, h9⟩ := h
  cases p with
  | null => exact ⟨h1, h2, h3, h4, h5, h6, h7, h8, h9⟩
  | blk x =>
    refine ⟨h1, h2, h3, h4, h5, h6, h7, h8, fun o => ?_⟩
    by_cases ho : o = x
    · subst ho
      simp only [writeHdr, if_pos rfl]
      exact ⟨htag, hnext, hprev, fun hS => hkb o rfl hS⟩
    · simp only [writeHdr, if_neg ho]
      exact h9 o
  | sent k =>
    have hg : g1 = g2 := by
      cases g1
      cases g2
      simp_all
    subst hg
    refine ⟨h1, h2, h3, h4, ?_, h6, h7, h8, h9⟩
    simp only [writeHdr]
    rw [h5]

theorem AgreeX_setTag {S : Nat → Prop} {s1 s2 : State} (h : AgreeX S s1 s2) (p : Ptr)
    (v : Int) : AgreeX S (setTag s1 p v) (setTag s2 p v) := by
  obtain ⟨ht, hn, hp⟩ := AgreeX_read_tnp h p
  exact AgreeX_writeHdr h p rfl hn hp
    (fun o hpo hS => AgreeX_read_kval h p (fun o' hpo' => by rw [hpo'] at hpo; cases hpo; exact hS))
    (fun k hpk => AgreeX_read_kval h p (fun o' hpo' => by rw [hpo'] at hpk; cases hpk))

theorem AgreeX_setNext {S : Nat → Prop} {s1 s2 : State} (h : AgreeX S s1 s2) (p : Ptr)
    (v : Ptr) : AgreeX S (setNext s1 p v) (setNext s2 p v) := by
  obtain ⟨ht, hn, hp⟩ := AgreeX_read_tnp h p
  exact AgreeX_writeHdr h p ht rfl hp
    (fun o hpo hS => AgreeX_read_kval h p (fun o' hpo' => by rw [hpo'] at hpo; cases hpo; exact hS))
    (fun k hpk => AgreeX_read_kval h p (fun o' hpo' => by rw [hpo'] at hpk; cases hpk))

theorem AgreeX_setPrev {S : Nat → Prop} {s1 s2 : State} (h : AgreeX S s1 s2) (p : Ptr)
    (v : Ptr) : AgreeX S (setPrev s1 p v) (setPrev s2 p v) := by
  obtain ⟨ht, hn, hp⟩ := AgreeX_read_tnp h p
  exact AgreeX_writeHdr h p ht hn rfl
    (fun o hpo hS => AgreeX_read_kval h p (fun o' hpo' => by rw [hpo'] at hpo; cases hpo; exact hS))
    (fun k hpk => AgreeX_read_kval h p (fun o' hpo' => by rw [hpo'] at hpk; cases hpk))

/-- Writing the same kval on both sides additionally heals the scratch
cell that was written. -/
theorem AgreeX_setKval_both {S : Nat → Prop} {s1 s2 : State} (h : AgreeX S s1 s2)
    (x : Nat) (v : Nat) :
    AgreeX (fun o => S o ∧ o ≠ x) (setKval s1 (Ptr.blk x) v) (setKval s2 (Ptr.blk x) v) := by
  obtain ⟨h1, h2, h3, h4, h5, h6, h7, h8, h9⟩ := h
  refine ⟨h1, h2, h3, h4, h5, h6, h7, h8, fun o => ?_⟩
  by_cases ho : o = x
  · subst ho
    simp only [setKval, writeHdr, readHdr, if_pos rfl]
    exact ⟨(h9 o).1, (h9 o).2.1, (h9 o).2.2.1, fun _ => rfl⟩
  · simp only [setKval, writeHdr, readHdr, if_neg ho]
    exact ⟨(h9 o).1, (h9 o).2.1, (h9 o).2.2.1,
      fun hno => (h9 o).2.2.2 fun hS => hno ⟨hS, ho⟩⟩

/-- A kval write performed only by the code side grows the scratch set. -/
theorem AgreeX_setKval_left {S : Nat → Prop} {s1 s2 : State} (h : AgreeX S s1 s2)
    (x : Nat) (v : Nat) :
    AgreeX (fun o => S o ∨ o = x) (setKval s1 (Ptr.blk x) v) s2 := by
  obtain ⟨h1, h2, h3, h4, h5, h6, h7, h8, h9⟩ := h
  refine ⟨h1, h2, h3, h4, h5, h6, h7, h8, fun o => ?_⟩
  by_cases ho : o = x
  · subst ho
    simp only [setKval, writeHdr, readHdr, if_pos rfl]
    exact ⟨(h9 o).1, (h9 o).2.1, (h9 o).2.2.1, fun hno => (hno (Or.inr trivial)).elim⟩
  · simp only [setKval, writeHdr, readHdr, if_neg ho]
    exact ⟨(h9 o).1, (h9 o).2.1, (h9 o).2.2.1,
      fun hno => (h9 o).2.2.2 fun hS => hno (Or.inl hS)⟩

/-- The "put on list" step shared verbatim by `buddy_free` (lines 277-283)
and the claim's step 4. -/
def putOnList (L : Ptr) (kval : Nat) (s : State) : State :=
  let s := setTag s L FREE
  let b2 := (s.avail kval).next
  let s := setNext s L b2
  let s := setPrev s b2 L
  let s := setKval s L kval
  let s := setPrev s L (Ptr.sent kval)
  setNext s (Ptr.sent kval) L

/-- The buddy-detach step shared verbatim by `buddy_free` (lines 287-288)
and the claim's "detach the buddy" action. -/
def mergeStep (buddy : Ptr) (s : State) : State :=
  let bh := readHdr s buddy
  let s := setNext s bh.prev bh.next
  let bh2 := readHdr s buddy
  setPrev s bh2.next bh2.prev

theorem freeLoop_succ (fuel : Nat) (L : Ptr) (kval : Nat) (s : State) :
    freeLoop (fuel + 1) L kval s =
      if kval = s.lgsize ∨ (readHdr s (find_buddy s L)).tag = RESERVED ∨
         ((readHdr s (find_buddy s L)).tag = FREE ∧ (readHdr s (find_buddy s L)).kval ≠ kval) then
        (L, kval, putOnList L kval s)
      else
        freeLoop fuel (if ptrLt (find_buddy s L) L then find_buddy s L else L) (kval + 1)
          (setKval (mergeStep (find_buddy s L) s)
            (if ptrLt (find_buddy s L) L then find_buddy s L else L) (kval + 1)) := rfl

/-- The buddy address as the claim computes it, from the loop order. -/
def specBuddy (L : Ptr) (k : Nat) : Ptr :=
  match L with
  | Ptr.blk off => Ptr.blk (off ^^^ 2 ^ k)
  | _ => Ptr.null

theorem releaseSpecLoop_succ (fuel : Nat) (L : Ptr) (kval : Nat) (s : State) :
    releaseSpecLoop (fuel + 1) L kval s =
      if kval = s.lgsize ∨ (readHdr s (specBuddy L kval)).tag = RESERVED ∨
         ((readHdr s (specBuddy L kval)).tag = FREE ∧
           (readHdr s (specBuddy L kval)).kval ≠ kval) then
        (L, kval, putOnList L kval s)
      else
        releaseSpecLoop fuel (if ptrLt (specBuddy L kval) L then specBuddy L kval else L)
          (kval + 1) (mergeStep (specBuddy L kval) s) := rfl

theorem AgreeX_putOnList {S : Nat → Prop} {sc ss : State} (h : AgreeX S sc ss)
    (L k : Nat) :
    AgreeX (fun o => S o ∧ o ≠ L)
      (putOnList (Ptr.blk L) k sc) (putOnList (Ptr.blk L) k ss) := by
  simp only [putOnList]
  have h1 := AgreeX_setTag h (Ptr.blk L) FREE
  have hb2 : ((setTag ss (Ptr.blk L) FREE).avail k).next
      = ((setTag sc (Ptr.blk L) FREE).avail k).next := by
    rw [h1.2.2.2.2.1]
  rw [hb2]
  have h2 := AgreeX_setNext h1 (Ptr.blk L) ((setTag sc (Ptr.blk L) FREE).avail k).next
  have h3 := AgreeX_setPrev h2 ((setTag sc (Ptr.blk L) FREE).avail k).next (Ptr.blk L)
  have h4 := AgreeX_setKval_both h3 L k
  have h5 := AgreeX_setPrev h4 (Ptr.blk L) (Ptr.sent k)
  exact AgreeX_setNext h5 (Ptr.sent k) (Ptr.blk L)

theorem AgreeX_mergeStep {S : Nat → Prop} {sc ss : State} (h : AgreeX S sc ss)
    (p : Ptr) : AgreeX S (mergeStep p sc) (mergeStep p ss) := by
  simp only [mergeStep]
  obtain ⟨ht, hn, hp⟩ := AgreeX_read_tnp h p
  rw [← hn, ← hp]
  have h1 := AgreeX_setNext h (readHdr sc p).prev (readHdr sc p).next
  obtain ⟨ht2, hn2, hp2⟩ := AgreeX_read_tnp h1 p
  rw [← hn2, ← hp2]
  exact AgreeX_setPrev h1 _ _

theorem writeHdr_lgsize (s : State) (p : Ptr) (h : Header) :
    (writeHdr s p h).lgsize = s.lgsize := by
  cases p <;> rfl

theorem setKval_lgsize (s : State) (p : Ptr) (v : Nat) :
    (setKval s p v).lgsize = s.lgsize := writeHdr_lgsize s p _

theorem mergeStep_lgsize (p : Ptr) (s : State) :
    (mergeStep p s).lgsize = s.lgsize := by
  unfold mergeStep
  rw [setPrev, writeHdr_lgsize, setNext, writeHdr_lgsize]

theorem setKval_mem_self (s : State) (x : Nat) (v : Nat) :
    (setKval s (Ptr.blk x) v).mem x = { s.mem x with kval := v } := by
  simp [setKval, writeHdr, readHdr]

/-- The coalescing loop of `buddy_free` and the claim's loop run in
lock-step: they make the same branch decisions, finish at the same block
`Lf` and order `kf`, and produce states that coincide everywhere except
for the `kval` scratch writes the code performs strictly inside the final
coalesced block. -/
theorem freeLoop_agrees :
    ∀ (fuel k L : Nat) (sc ss : State),
      AgreeX (fun o => L ≤ o ∧ o < L + 2 ^ k) sc ss →
      (sc.mem L).kval = k →
      k ≤ sc.lgsize →
      sc.lgsize + 1 - k ≤ fuel →
      ∃ Lf kf,
        (freeLoop fuel (Ptr.blk L) k sc).1 = Ptr.blk Lf ∧
        (releaseSpecLoop fuel (Ptr.blk L) k ss).1 = Ptr.blk Lf ∧
        (freeLoop fuel (Ptr.blk L) k sc).2.1 = kf ∧
        (releaseSpecLoop fuel (Ptr.blk L) k ss).2.1 = kf ∧
        AgreeX (fun o => Lf < o ∧ o < Lf + 2 ^ kf)
          (freeLoop fuel (Ptr.blk L) k sc).2.2
          (releaseSpecLoop fuel (Ptr.blk L) k ss).2.2 := by
  intro fuel
  induction fuel with
  | zero =>
    intro k L sc ss _ _ hk hf
    omega
  | succ fuel ih =>
    intro k L sc ss hA hkv hk hf
    have hbud : find_buddy sc (Ptr.blk L) = Ptr.blk (L ^^^ 2 ^ k) := by
      simp [find_buddy, hkv]
    have hsb : specBuddy (Ptr.blk L) k = Ptr.blk (L ^^^ 2 ^ k) := rfl
    have hbS : ¬ (L ≤ L ^^^ 2 ^ k ∧ L ^^^ 2 ^ k < L + 2 ^ k) := by
      rintro ⟨hb1, hb2⟩
      exact xor_two_pow_outside hb1 hb2 rfl
    have hlg : sc.lgsize = ss.lgsize := hA.2.2.1
    obtain ⟨htagb, hnextb, hprevb⟩ := AgreeX_read_tnp hA (Ptr.blk (L ^^^ 2 ^ k))
    have hkvb : (readHdr sc (Ptr.blk (L ^^^ 2 ^ k))).kval
        = (readHdr ss (Ptr.blk (L ^^^ 2 ^ k))).kval := by
      refine AgreeX_read_kval hA _ fun o ho => ?_
      cases ho
      exact hbS
    rw [freeLoop_succ, releaseSpecLoop_succ, hbud, hsb]
    by_cases hC : k = sc.lgsize ∨ (readHdr sc (Ptr.blk (L ^^^ 2 ^ k))).tag = RESERVED ∨
        ((readHdr sc (Ptr.blk (L ^^^ 2 ^ k))).tag = FREE ∧
          (readHdr sc (Ptr.blk (L ^^^ 2 ^ k))).kval ≠ k)
    · have hCs : k = ss.lgsize ∨ (readHdr ss (Ptr.blk (L ^^^ 2 ^ k))).tag = RESERVED ∨
          ((readHdr ss (Ptr.blk (L ^^^ 2 ^ k))).tag = FREE ∧
            (readHdr ss (Ptr.blk (L ^^^ 2 ^ k))).kval ≠ k) := by
        rw [← hlg, ← htagb, ← hkvb]
        exact hC
      rw [if_pos hC, if_pos hCs]
      refine ⟨L, k, rfl, rfl, rfl, rfl, ?_⟩
      refine AgreeX_mono (AgreeX_putOnList hA L k) fun o ho => ?_
      obtain ⟨⟨ho1, ho2⟩, ho3⟩ := ho
      exact ⟨by omega, ho2⟩
    · have hCs : ¬ (k = ss.lgsize ∨ (readHdr ss (Ptr.blk (L ^^^ 2 ^ k))).tag = RESERVED ∨
          ((readHdr ss (Ptr.blk (L ^^^ 2 ^ k))).tag = FREE ∧
            (readHdr ss (Ptr.blk (L ^^^ 2 ^ k))).kval ≠ k)) := by
        rw [← hlg, ← htagb, ← hkvb]
        exact hC
      rw [if_neg hC, if_neg hCs]
      have hLb : (if ptrLt (Ptr.blk (L ^^^ 2 ^ k)) (Ptr.blk L) then Ptr.blk (L ^^^ 2 ^ k)
          else Ptr.blk L) = Ptr.blk (if L ^^^ 2 ^ k < L then L ^^^ 2 ^ k else L) := by
        by_cases hlt : L ^^^ 2 ^ k < L
        · simp [ptrLt, hlt]
        · simp [ptrLt, hlt]
      rw [hLb]
      have hgeom := xor_two_pow_cases L k
      have hpow : (2 : Nat) ^ (k + 1) = 2 ^ k + 2 ^ k := by ring
      have hmerge := AgreeX_mergeStep hA (Ptr.blk (L ^^^ 2 ^ k))
      have hleft := AgreeX_setKval_left hmerge (if L ^^^ 2 ^ k < L then L ^^^ 2 ^ k else L)
        (k + 1)
      have hA2 : AgreeX (fun o => (if L ^^^ 2 ^ k < L then L ^^^ 2 ^ k else L) ≤ o ∧
          o < (if L ^^^ 2 ^ k < L then L ^^^ 2 ^ k else L) + 2 ^ (k + 1))
          (setKval (mergeStep (Ptr.blk (L ^^^ 2 ^ k)) sc)
            (Ptr.blk (if L ^^^ 2 ^ k < L then L ^^^ 2 ^ k else L)) (k + 1))
          (mergeStep (Ptr.blk (L ^^^ 2 ^ k)) ss) := by
        refine AgreeX_mono hleft fun o ho => ?_
        have h2k : 0 < 2 ^ k := Nat.two_pow_pos k
        rcases hgeom with hg | hg
        · have hlt : ¬ (L ^^^ 2 ^ k < L) := by omega
          simp only [if_neg hlt] at ho ⊢
          rcases ho with ⟨ho1, ho2⟩ | rfl
          · exact ⟨ho1, by omega⟩
          · exact ⟨le_rfl, by omega⟩
        · have hlt : L ^^^ 2 ^ k < L := by omega
          simp only [if_pos hlt] at ho ⊢
          rcases ho with ⟨ho1, ho2⟩ | rfl
          · exact ⟨by omega, by omega⟩
          · exact ⟨le_rfl, by omega⟩
      have hkv2 : ((setKval (mergeStep (Ptr.blk (L ^^^ 2 ^ k)) sc)
          (Ptr.blk (if L ^^^ 2 ^ k < L then L ^^^ 2 ^ k else L)) (k + 1)).mem
            (if L ^^^ 2 ^ k < L then L ^^^ 2 ^ k else L)).kval = k + 1 := by
        rw [setKval_mem_self]
      have hklt : k < sc.lgsize := by
        rcases Nat.lt_or_ge k sc.lgsize with h | h
        · exact h
        · exact absurd (Or.inl (by omega)) hC
      have hlg2 : (setKval (mergeStep (Ptr.blk (L ^^^ 2 ^ k)) sc)
          (Ptr.blk (if L ^^^ 2 ^ k < L then L ^^^ 2 ^ k else L)) (k + 1)).lgsize
            = sc.lgsize := by
        rw [setKval_lgsize, mergeStep_lgsize]
      exact ih (k + 1) (if L ^^^ 2 ^ k < L then L ^^^ 2 ^ k else L) _ _ hA2 hkv2
        (by omega) (by omega)

/-- Modelled from the claim: the whole of `release(p)` as the claim
describes it (null/uninitialized guard, then the claimed loop). -/
def release_spec (p : Ptr) (s : State) : State :=
  if p = Ptr.null ∨ s.inited = false then s
  else
    let L := ptrSub p HDR_SIZE
    let kval := (readHdr s L).kval
    (releaseSpecLoop (s.lgsize + 1) L kval s).2.2

/-- C1: for a block pointer `p = blk u` on an initialized allocator whose
stored order is in range (true of every pointer handed out by `reserve`),
`buddy_free` performs exactly the loop the claim describes: the code loop
and the claim loop stop at the same block `Lf` and order `kf` (having made
identical stop/merge decisions and identical list detachments), insert that
block at the head of `avail[kf]` with tag `FREE` and order `kf`, and the
resulting states agree bit-for-bit — on the whole sentinel table and on
every header field — except for the `L->kval` scratch writes (line 296 of
buddy.c) the code leaves strictly inside the interior of the final
coalesced block, which the claim's loop does not mention. -/
theorem C1_release_follows_claim (s : State) (u : Nat) (hin : s.inited = true)
    (hku : (s.mem (u - HDR_SIZE)).kval ≤ s.lgsize) :
    ∃ Lf kf,
      (freeLoop (s.lgsize + 1) (Ptr.blk (u - HDR_SIZE))
        ((s.mem (u - HDR_SIZE)).kval) s).1 = Ptr.blk Lf ∧
      (releaseSpecLoop (s.lgsize + 1) (Ptr.blk (u - HDR_SIZE))
        ((s.mem (u - HDR_SIZE)).kval) s).1 = Ptr.blk Lf ∧
      (freeLoop (s.lgsize + 1) (Ptr.blk (u - HDR_SIZE))
        ((s.mem (u - HDR_SIZE)).kval) s).2.1 = kf ∧
      (releaseSpecLoop (s.lgsize + 1) (Ptr.blk (u - HDR_SIZE))
        ((s.mem (u - HDR_SIZE)).kval) s).2.1 = kf ∧
      buddy_free (Ptr.blk u) s = (freeLoop (s.lgsize + 1) (Ptr.blk (u - HDR_SIZE))
        ((s.mem (u - HDR_SIZE)).kval) s).2.2 ∧
      release_spec (Ptr.blk u) s = (releaseSpecLoop (s.lgsize + 1) (Ptr.blk (u - HDR_SIZE))
        ((s.mem (u - HDR_SIZE)).kval) s).2.2 ∧
      AgreeX (fun o => Lf < o ∧ o < Lf + 2 ^ kf)
        (buddy_free (Ptr.blk u) s) (release_spec (Ptr.blk u) s) := by
  obtain ⟨Lf, kf, h1, h2, h3, h4, h5⟩ :=
    freeLoop_agrees (s.lgsize + 1) ((s.mem (u - HDR_SIZE)).kval) (u - HDR_SIZE) s s
      (AgreeX_refl _ s) rfl hku (by omega)
  have hbf : buddy_free (Ptr.blk u) s = (freeLoop (s.lgsize + 1) (Ptr.blk (u - HDR_SIZE))
      ((s.mem (u - HDR_SIZE)).kval) s).2.2 := by
    simp [buddy_free, hin, ptrSub, readHdr]
  have hrs : release_spec (Ptr.blk u) s = (releaseSpecLoop (s.lgsize + 1)
      (Ptr.blk (u - HDR_SIZE)) ((s.mem (u - HDR_SIZE)).kval) s).2.2 := by
    simp [release_spec, hin, ptrSub, readHdr]
  refine ⟨Lf, kf, h1, h2, h3, h4, hbf, hrs, ?_⟩
  rw [hbf, hrs]
  exact h5

/-- Closed witness for `C1_release_follows_claim` at the reachable state
`exB` and the reserve-returned pointer `blk 24`. -/
theorem C1_witness :
    (exB.inited = true ∧ (exB.mem (24 - HDR_SIZE)).kval ≤ exB.lgsize) ∧
    ∃ Lf kf, AgreeX (fun o => Lf < o ∧ o < Lf + 2 ^ kf)
      (buddy_free (Ptr.blk 24) exB) (release_spec (Ptr.blk 24) exB) := by
  refine ⟨⟨by decide, by decide⟩, ?_⟩
  obtain ⟨Lf, kf, -, -, -, -, -, -, h⟩ :=
    C1_release_follows_claim exB 24 (by decide) (by decide)
  exact ⟨Lf, kf, h⟩

/-! ### The block decomposition (ghost state for the allocator invariant) -/

/-- Refined buddy arithmetic: for an offset divisible by `2^k`, flipping
bit `k` either adds `2^k` (and then the offset was even in units of `2^k`,
so it is in fact divisible by `2^(k+1)`), or subtracts `2^k` (and then the
lower buddy is divisible by `2^(k+1)`). -/
theorem xor_aligned_cases {o k : Nat} (hd : 2 ^ k ∣ o) :
    (o ^^^ 2 ^ k = o + 2 ^ k ∧ 2 ^ (k + 1) ∣ o) ∨
    ((o ^^^ 2 ^ k) + 2 ^ k = o ∧ 2 ^ (k + 1) ∣ (o ^^^ 2 ^ k)) := by
  obtain ⟨q, rfl⟩ := hd
  cases hb : (2 ^ k * q).testBit k with
  | false =>
    left
    have hq : q % 2 = 0 := by
      rw [Nat.testBit_to_div_mod] at hb
      rw [Nat.mul_div_cancel_left q (Nat.two_pow_pos k)] at hb
      simpa using hb
    refine ⟨xor_two_pow_of_testBit_false k _ hb, ?_⟩
    obtain ⟨t, rfl⟩ : ∃ t, q = 2 * t := ⟨q / 2, by omega⟩
    exact ⟨t, by ring⟩
  | true =>
    right
    have h2 : (2 ^ k * q ^^^ 2 ^ k).testBit k = false := by
      simp [Nat.testBit_xor, hb]
    have hstep := xor_two_pow_of_testBit_false k (2 ^ k * q ^^^ 2 ^ k) h2
    rw [Nat.xor_cancel_right] at hstep
    have heq : (2 ^ k * q ^^^ 2 ^ k) + 2 ^ k = 2 ^ k * q := by omega
    refine ⟨heq, ?_⟩
    have hq : q % 2 = 1 := by
      rw [Nat.testBit_to_div_mod] at hb
      rw [Nat.mul_div_cancel_left q (Nat.two_pow_pos k)] at hb
      simpa using hb
    obtain ⟨t, rfl⟩ : ∃ t, q = 2 * t + 1 := ⟨q / 2, by omega⟩
    refine ⟨t, ?_⟩
    have hval : 2 ^ k * (2 * t + 1) = 2 ^ (k + 1) * t + 2 ^ k := by ring
    rw [hval] at heq
    omega

/-- The ghost block list: `(offset, order)` pairs tiling `[base, 2^m)` in
address order, each block aligned to its size. -/
def TilesFrom (m : Nat) : Nat → List (Nat × Nat) → Prop
  | base, [] => base = 2 ^ m
  | base, b :: rest => b.1 = base ∧ 2 ^ b.2 ∣ b.1 ∧ b.2 ≤ m ∧ TilesFrom m (b.1 + 2 ^ b.2) rest

theorem TilesFrom_base_le {m : Nat} :
    ∀ {base bl}, TilesFrom m base bl → base ≤ 2 ^ m := by
  intro base bl
  induction bl generalizing base with
  | nil => intro h; exact le_of_eq h
  | cons b rest ih =>
    intro h
    obtain ⟨h1, _, _, h4⟩ := h
    have := ih h4
    have := Nat.two_pow_pos b.2
    omega

theorem TilesFrom_mem_bounds {m : Nat} :
    ∀ {base bl}, TilesFrom m base bl → ∀ b ∈ bl,
      base ≤ b.1 ∧ b.1 + 2 ^ b.2 ≤ 2 ^ m ∧ 2 ^ b.2 ∣ b.1 ∧ b.2 ≤ m := by
  intro base bl
  induction bl generalizing base with
  | nil => intro _ b hb; cases hb
  | cons c rest ih =>
    intro h b hb
    obtain ⟨h1, h2, h3, h4⟩ := h
    rcases List.mem_cons.mp hb with rfl | hb'
    · exact ⟨le_of_eq h1.symm, TilesFrom_base_le h4, h2, h3⟩
    · obtain ⟨hb1, hb2, hb3, hb4⟩ := ih h4 b hb'
      have := Nat.two_pow_pos c.2
      exact ⟨by omega, hb2, hb3, hb4⟩

/-- Distinct blocks of a tiling occupy disjoint intervals. -/
theorem TilesFrom_disjoint {m : Nat} :
    ∀ {base bl}, TilesFrom m base bl → ∀ b ∈ bl, ∀ c ∈ bl, b ≠ c →
      b.1 + 2 ^ b.2 ≤ c.1 ∨ c.1 + 2 ^ c.2 ≤ b.1 := by
  intro base bl
  induction bl generalizing base with
  | nil => intro _ b hb; cases hb
  | cons a rest ih =>
    intro h b hb c hc hbc
    obtain ⟨h1, h2, h3, h4⟩ := h
    rcases List.mem_cons.mp hb with rfl | hb' <;> rcases List.mem_cons.mp hc with rfl | hc'
    · exact absurd rfl hbc
    · exact Or.inl (TilesFrom_mem_bounds h4 c hc').1
    · exact Or.inr (TilesFrom_mem_bounds h4 b hb').1
    · exact ih h4 b hb' c hc' hbc

/-- The block at a given offset is unique. -/
theorem TilesFrom_offset_unique {m : Nat} {base : Nat} {bl : List (Nat × Nat)}
    (h : TilesFrom m base bl) {b c : Nat × Nat} (hb : b ∈ bl) (hc : c ∈ bl)
    (hoff : b.1 = c.1) : b = c := by
  by_contra hne
  have := Nat.two_pow_pos b.2
  have := Nat.two_pow_pos c.2
  rcases TilesFrom_disjoint h b hb c hc hne with h' | h' <;> omega

/-- Every address of the arena is covered by a block. -/
theorem TilesFrom_cover {m : Nat} :
    ∀ {base bl}, TilesFrom m base bl → ∀ a, base ≤ a → a < 2 ^ m →
      ∃ b ∈ bl, b.1 ≤ a ∧ a < b.1 + 2 ^ b.2 := by
  intro base bl
  induction bl generalizing base with
  | nil =>
    intro h a ha1 ha2
    rw [h] at ha1
    omega
  | cons c rest ih =>
    intro h a ha1 ha2
    obtain ⟨h1, h2, h3, h4⟩ := h
    by_cases hin : a < c.1 + 2 ^ c.2
    · exact ⟨c, List.mem_cons_self c rest, by omega, hin⟩
    · obtain ⟨b, hb, hb1, hb2⟩ := ih h4 a (by omega) ha2
      exact ⟨b, List.mem_cons_of_mem c hb, hb1, hb2⟩

/-- An address divisible by `2^j` lying in a `2^j`-aligned window is the
window's start. -/
theorem aligned_in_window {j o b : Nat} (hoal : 2 ^ j ∣ o) (hbal : 2 ^ j ∣ b)
    (h1 : o ≤ b) (h2 : b < o + 2 ^ j) : b = o := by
  obtain ⟨x, rfl⟩ := hoal
  obtain ⟨y, rfl⟩ := hbal
  have hxy : x ≤ y := Nat.le_of_mul_le_mul_left h1 (Nat.two_pow_pos j)
  have hyx : y < x + 1 := by
    have hh : 2 ^ j * y < 2 ^ j * (x + 1) := by
      calc 2 ^ j * y < 2 ^ j * x + 2 ^ j := h2
        _ = 2 ^ j * (x + 1) := by ring
    exact Nat.lt_of_mul_lt_mul_left hh
  have : x = y := by omega
  rw [this]

/-- Two distinct multiples of `2^j` are at least `2^j` apart. -/
theorem aligned_gap {j o1 o2 : Nat} (h1 : 2 ^ j ∣ o1) (h2 : 2 ^ j ∣ o2)
    (hlt : o1 < o2) : o1 + 2 ^ j ≤ o2 := by
  obtain ⟨x, rfl⟩ := h1
  obtain ⟨y, rfl⟩ := h2
  have hxy : x < y := Nat.lt_of_mul_lt_mul_left hlt
  calc 2 ^ j * x + 2 ^ j = 2 ^ j * (x + 1) := by ring
    _ ≤ 2 ^ j * y := Nat.mul_le_mul_left _ (by omega)

/-- In any tiling of the arena, the buddy address of a block of order
`k < m` is the start of a block of order at most `k`. -/
theorem TilesFrom_buddy_start {m : Nat} {bl : List (Nat × Nat)}
    (h : TilesFrom m 0 bl) {off k : Nat} (hb : (off, k) ∈ bl) (hkm : k < m) :
    ∃ j, j ≤ k ∧ (off ^^^ 2 ^ k, j) ∈ bl := by
  have hend : off + 2 ^ k ≤ 2 ^ m := by
    simpa using (TilesFrom_mem_bounds h (off, k) hb).2.1
  have hal : 2 ^ k ∣ off := by
    simpa using (TilesFrom_mem_bounds h (off, k) hb).2.2.1
  have hpos := Nat.two_pow_pos k
  have hpow : (2 : Nat) ^ (k + 1) = 2 ^ k + 2 ^ k := by ring
  have hdm : 2 ^ (k + 1) ∣ 2 ^ m := pow_dvd_pow 2 (by omega)
  rcases xor_aligned_cases hal with ⟨hup, hdiv⟩ | ⟨hdown, hdiv⟩
  · -- buddy above: off ^^^ 2^k = off + 2^k, with 2^(k+1) ∣ off
    have hblt : off + 2 ^ k < 2 ^ m := by
      have := aligned_gap hdiv hdm (by omega)
      omega
    obtain ⟨c, hc, hc1, hc2⟩ := TilesFrom_cover h (off + 2 ^ k) (Nat.zero_le _) hblt
    obtain ⟨-, -, hcal, -⟩ := TilesFrom_mem_bounds h c hc
    by_cases hj : c.2 ≤ k
    · have hdvd_b : 2 ^ c.2 ∣ off + 2 ^ k :=
        Nat.dvd_add (dvd_trans (pow_dvd_pow 2 (by omega)) hdiv) (pow_dvd_pow 2 hj)
      have hceq : off + 2 ^ k = c.1 := aligned_in_window hcal hdvd_b hc1 hc2
      refine ⟨c.2, hj, ?_⟩
      rw [hup, hceq]
      have : c = (c.1, c.2) := rfl
      rw [← this]
      exact hc
    · exfalso
      push_neg at hj
      have hcal' : 2 ^ (k + 1) ∣ c.1 := dvd_trans (pow_dvd_pow 2 (by omega)) hcal
      have hco : c.1 ≤ off := by
        by_contra hlt
        push_neg at hlt
        have := aligned_gap hdiv hcal' hlt
        omega
      have hneq : (off, k) ≠ c := by
        intro he
        rw [← he] at hj
        omega
      rcases TilesFrom_disjoint h (off, k) hb c hc hneq with hD | hD
      · have hD' : off + 2 ^ k ≤ c.1 := by simpa using hD
        omega
      · have hD' : c.1 + 2 ^ c.2 ≤ off := by simpa using hD
        omega
  · -- buddy below: (off ^^^ 2^k) + 2^k = off, with 2^(k+1) ∣ (off ^^^ 2^k)
    have hblt : off ^^^ 2 ^ k < 2 ^ m := by omega
    obtain ⟨c, hc, hc1, hc2⟩ := TilesFrom_cover h (off ^^^ 2 ^ k) (Nat.zero_le _) hblt
    obtain ⟨-, hcend, hcal, -⟩ := TilesFrom_mem_bounds h c hc
    by_cases hj : c.2 ≤ k
    · have hdvd_b : 2 ^ c.2 ∣ off ^^^ 2 ^ k :=
        dvd_trans (pow_dvd_pow 2 (by omega)) hdiv
      have hceq : off ^^^ 2 ^ k = c.1 := aligned_in_window hcal hdvd_b hc1 hc2
      refine ⟨c.2, hj, ?_⟩
      rw [hceq]
      have : c = (c.1, c.2) := rfl
      rw [← this]
      exact hc
    · exfalso
      push_neg at hj
      have hcal' : 2 ^ (k + 1) ∣ c.1 := dvd_trans (pow_dvd_pow 2 (by omega)) hcal
      have hz : 2 ^ (k + 1) ∣ c.1 + 2 ^ c.2 :=
        Nat.dvd_add hcal' (dvd_trans (pow_dvd_pow 2 (by omega)) (pow_dvd_pow 2 (le_refl c.2)))
      have hgap := aligned_gap hdiv hz (by omega)
      have hco : c.1 ≤ off := by omega
      have hoff_in : off < c.1 + 2 ^ c.2 := by omega
      have hneq : (off, k) ≠ c := by
        intro he
        rw [← he] at hj
        omega
      rcases TilesFrom_disjoint h (off, k) hb c hc hneq with hD | hD
      · have hD' : off + 2 ^ k ≤ c.1 := by simpa using hD
        omega
      · have hD' : c.1 + 2 ^ c.2 ≤ off := by simpa using hD
        omega

/-- A tiling segment: blocks covering exactly `[base, stop)` in order. -/
def TilesSeg (m : Nat) : Nat → Nat → List (Nat × Nat) → Prop
  | base, stop, [] => base = stop
  | base, stop, b :: rest => b.1 = base ∧ 2 ^ b.2 ∣ b.1 ∧ b.2 ≤ m ∧
      TilesSeg m (b.1 + 2 ^ b.2) stop rest

theorem TilesSeg_append {m : Nat} :
    ∀ {l1 l2 : List (Nat × Nat)} {a b c : Nat},
      TilesSeg m a b l1 → TilesSeg m b c l2 → TilesSeg m a c (l1 ++ l2) := by
  intro l1
  induction l1 with
  | nil =>
    intro l2 a b c h1 h2
    cases h1
    exact h2
  | cons x rest ih =>
    intro l2 a b c h1 h2
    obtain ⟨hx1, hx2, hx3, hx4⟩ := h1
    exact ⟨hx1, hx2, hx3, ih hx4 h2⟩

theorem TilesFrom_iff_seg {m : Nat} :
    ∀ {bl : List (Nat × Nat)} {base : Nat},
      TilesFrom m base bl ↔ TilesSeg m base (2 ^ m) bl := by
  intro bl
  induction bl with
  | nil => intro base; exact Iff.rfl
  | cons b rest ih =>
    intro base
    constructor
    · rintro ⟨h1, h2, h3, h4⟩
      exact ⟨h1, h2, h3, ih.mp h4⟩
    · rintro ⟨h1, h2, h3, h4⟩
      exact ⟨h1, h2, h3, ih.mpr h4⟩

theorem TilesSeg_mem_bounds {m : Nat} :
    ∀ {l : List (Nat × Nat)} {a b : Nat}, TilesSeg m a b l →
      ∀ x ∈ l, a ≤ x.1 ∧ x.1 + 2 ^ x.2 ≤ b := by
  intro l
  induction l with
  | nil => intro a b _ x hx; cases hx
  | cons c rest ih =>
    intro a b h x hx
    obtain ⟨h1, h2, h3, h4⟩ := h
    have hble : ∀ {aa bb : Nat} {ll}, TilesSeg m aa bb ll → aa ≤ bb := by
      intro aa bb ll hseg
      induction ll generalizing aa with
      | nil => exact le_of_eq hseg
      | cons d r ih2 =>
        obtain ⟨hd1, hd2, hd3, hd4⟩ := hseg
        have := ih2 hd4
        have := Nat.two_pow_pos d.2
        omega
    rcases List.mem_cons.mp hx with rfl | hx'
    · exact ⟨le_of_eq h1.symm, hble h4⟩
    · obtain ⟨hb1, hb2⟩ := ih h4 x hx'
      have := Nat.two_pow_pos c.2
      exact ⟨by omega, hb2⟩

/-- Split a tiling at a member block. -/
theorem TilesFrom_mem_split {m base : Nat} {bl : List (Nat × Nat)}
    (h : TilesFrom m base bl) {b : Nat × Nat} (hb : b ∈ bl) :
    ∃ pre post, bl = pre ++ b :: post ∧ TilesSeg m base b.1 pre ∧
      TilesFrom m (b.1 + 2 ^ b.2) post := by
  induction bl generalizing base with
  | nil => cases hb
  | cons c rest ih =>
    obtain ⟨h1, h2, h3, h4⟩ := h
    rcases List.mem_cons.mp hb with rfl | hb'
    · exact ⟨[], rest, rfl, h1.symm, h4⟩
    · obtain ⟨pre, post, hsplit, hseg, hfrom⟩ := ih h4 hb'
      exact ⟨c :: pre, post, by rw [hsplit]; rfl, ⟨h1, h2, h3, hseg⟩, hfrom⟩

/-- Replace a member block by any run that tiles the same interval. -/
theorem TilesFrom_replace {m base : Nat} {pre post r : List (Nat × Nat)}
    {b : Nat × Nat} (hseg : TilesSeg m base b.1 pre)
    (hfrom : TilesFrom m (b.1 + 2 ^ b.2) post)
    (hr : TilesSeg m b.1 (b.1 + 2 ^ b.2) r) :
    TilesFrom m base (pre ++ r ++ post) := by
  rw [TilesFrom_iff_seg]
  refine TilesSeg_append (TilesSeg_append hseg hr) ?_
  exact TilesFrom_iff_seg.mp hfrom

/-- The run of free buddies `(fb + 2^k, k), …, (fb + 2^(k+c-1), k+c-1)`
produced by the split loop. -/
def ladder (fb : Nat) : Nat → Nat → List (Nat × Nat)
  | _, 0 => []
  | k, c + 1 => (fb + 2 ^ k, k) :: ladder fb (k + 1) c

theorem ladder_mem {fb : Nat} :
    ∀ {c k x}, x ∈ ladder fb k c ↔ ∃ j, k ≤ j ∧ j < k + c ∧ x = (fb + 2 ^ j, j) := by
  intro c
  induction c with
  | zero =>
    intro k x
    simp [ladder]
    omega
  | succ c ih =>
    intro k x
    simp only [ladder, List.mem_cons, ih]
    constructor
    · rintro (rfl | ⟨j, hj1, hj2, rfl⟩)
      · exact ⟨k, le_rfl, by omega, rfl⟩
      · exact ⟨j, by omega, by omega, rfl⟩
    · rintro ⟨j, hj1, hj2, rfl⟩
      rcases Nat.eq_or_lt_of_le hj1 with rfl | hlt
      · exact Or.inl rfl
      · exact Or.inr ⟨j, by omega, by omega, rfl⟩

theorem ladder_seg {m fb : Nat} :
    ∀ {c k}, 2 ^ (k + c) ∣ fb → k + c ≤ m →
      TilesSeg m (fb + 2 ^ k) (fb + 2 ^ (k + c)) (ladder fb k c) := by
  intro c
  induction c with
  | zero =>
    intro k _ _
    rfl
  | succ c ih =>
    intro k hdvd hm
    refine ⟨rfl, ?_, by omega, ?_⟩
    · exact Nat.dvd_add (dvd_trans (pow_dvd_pow 2 (by omega)) hdvd) dvd_rfl
    · have heq : fb + 2 ^ k + 2 ^ k = fb + 2 ^ (k + 1) := by
        have : (2 : Nat) ^ (k + 1) = 2 ^ k + 2 ^ k := by ring
        omega
      have heq2 : k + (c + 1) = (k + 1) + c := by omega
      rw [heq, heq2]
      exact ih (by rw [← heq2]; exact hdvd) (by omega)

/-- Replacing a block by the reserved block plus the split ladder keeps a
valid tiling, and changes the membership exactly as expected. -/
theorem TilesFrom_split_block {m : Nat} {bl : List (Nat × Nat)} {fb j0 kv : Nat}
    (h : TilesFrom m 0 bl) (hb : (fb, j0) ∈ bl) (hkv : kv ≤ j0) :
    ∃ bl', TilesFrom m 0 bl' ∧
      (∀ x, x ∈ bl' ↔ (x ∈ bl ∧ x ≠ (fb, j0)) ∨ x = (fb, kv) ∨
        x ∈ ladder fb kv (j0 - kv)) := by
  have hbounds := TilesFrom_mem_bounds h (fb, j0) hb
  have hal : 2 ^ j0 ∣ fb := by simpa using hbounds.2.2.1
  have hjm : j0 ≤ m := by simpa using hbounds.2.2.2
  obtain ⟨pre, post, hsplit, hseg, hfrom⟩ := TilesFrom_mem_split h hb
  have hkc : kv + (j0 - kv) = j0 := by omega
  have hr : TilesSeg m fb (fb + 2 ^ j0) ((fb, kv) :: ladder fb kv (j0 - kv)) := by
    refine ⟨rfl, dvd_trans (pow_dvd_pow 2 hkv) hal, by omega, ?_⟩
    have := @ladder_seg m fb (j0 - kv) kv
      (by rw [hkc]; exact hal) (by omega)
    rw [hkc] at this
    exact this
  have hres : TilesFrom m 0 (pre ++ ((fb, kv) :: ladder fb kv (j0 - kv)) ++ post) :=
    TilesFrom_replace hseg hfrom hr
  refine ⟨pre ++ ((fb, kv) :: ladder fb kv (j0 - kv)) ++ post, hres, ?_⟩
  have hprelt : ∀ x ∈ pre, x.1 < fb := by
    intro x hx
    have := (TilesSeg_mem_bounds hseg x hx).2
    have := Nat.two_pow_pos x.2
    omega
  have hpostge : ∀ x ∈ post, fb + 2 ^ j0 ≤ x.1 := by
    intro x hx
    have := (TilesFrom_mem_bounds hfrom x hx).1
    simpa using this
  have hladlt : ∀ x ∈ ladder fb kv (j0 - kv), fb < x.1 ∧ x.1 < fb + 2 ^ j0 ∧ x.2 < j0 := by
    intro x hx
    obtain ⟨j, hj1, hj2, rfl⟩ := ladder_mem.mp hx
    refine ⟨by have := Nat.two_pow_pos j; omega, ?_, by omega⟩
    have : (2 : Nat) ^ j < 2 ^ j0 := Nat.pow_lt_pow_right (by norm_num) (by omega)
    omega
  intro x
  have F1 : x ∈ pre → x ≠ (fb, j0) := by
    intro hx he
    have := hprelt x hx
    rw [he] at this
    simp at this
  have F2 : x ∈ post → x ≠ (fb, j0) := by
    intro hx he
    have h' := hpostge x hx
    rw [he] at h'
    simp at h'
  rw [hsplit]
  simp only [List.mem_append, List.mem_cons]
  tauto

/-- Merging two adjacent buddies of order `k` into one block of order
`k + 1` keeps a valid tiling and changes the membership as expected. -/
theorem TilesFrom_merge_pair {m : Nat} {bl : List (Nat × Nat)} {o k : Nat}
    (h : TilesFrom m 0 bl) (h1 : (o, k) ∈ bl) (h2 : (o + 2 ^ k, k) ∈ bl)
    (hal : 2 ^ (k + 1) ∣ o) (hkm : k + 1 ≤ m) :
    ∃ bl', TilesFrom m 0 bl' ∧
      (∀ x, x ∈ bl' ↔ (x ∈ bl ∧ x ≠ (o, k) ∧ x ≠ (o + 2 ^ k, k)) ∨ x = (o, k + 1)) := by
  have hp2 := Nat.two_pow_pos k
  have hpow : (2 : Nat) ^ (k + 1) = 2 ^ k + 2 ^ k := by ring
  obtain ⟨pre, post1, hsplit, hseg, hfrom⟩ := TilesFrom_mem_split h h1
  have hpre_lt : ∀ x ∈ pre, x.1 < o := by
    intro x hx
    have hb := (TilesSeg_mem_bounds hseg x hx).2
    have hb' : x.1 + 2 ^ x.2 ≤ o := by simpa using hb
    have := Nat.two_pow_pos x.2
    omega
  have hb2_in_post : (o + 2 ^ k, k) ∈ post1 := by
    have h2' : (o + 2 ^ k, k) ∈ pre ++ (o, k) :: post1 := by rw [← hsplit]; exact h2
    rcases List.mem_append.mp h2' with hx | hx
    · have := hpre_lt _ hx
      simp at this
    · rcases List.mem_cons.mp hx with he | hx
      · exfalso
        have : o + 2 ^ k = o := ((Prod.mk.injEq _ _ _ _).mp he).1
        omega
      · exact hx
  cases post1 with
  | nil => cases hb2_in_post
  | cons c post2 =>
    obtain ⟨hc1, hc2, hc3, hc4⟩ := hfrom
    have hc1' : c.1 = o + 2 ^ k := by simpa using hc1
    have hcin : c ∈ bl := by
      rw [hsplit]
      simp
    have hceq : c = (o + 2 ^ k, k) :=
      TilesFrom_offset_unique h hcin h2 (by simpa using hc1')
    subst hceq
    have hfrom2 : TilesFrom m (o + 2 ^ (k + 1)) post2 := by
      have heq : o + 2 ^ k + 2 ^ k = o + 2 ^ (k + 1) := by omega
      rw [← heq]
      simpa using hc4
    have hseg' : TilesSeg m 0 o pre := by simpa using hseg
    have hr : TilesSeg m o (o + 2 ^ (k + 1)) [(o, k + 1)] := ⟨rfl, hal, hkm, rfl⟩
    have hres := TilesFrom_replace (b := (o, k + 1)) hseg' (by simpa using hfrom2) hr
    refine ⟨pre ++ [(o, k + 1)] ++ post2, hres, ?_⟩
    have hpost_ge : ∀ x ∈ post2, o + 2 ^ (k + 1) ≤ x.1 := by
      intro x hx
      simpa using (TilesFrom_mem_bounds hfrom2 x hx).1
    intro x
    have F1a : x ∈ pre → x ≠ (o, k) := by
      intro hx he
      have := hpre_lt x hx
      rw [he] at this
      simp at this
    have F1b : x ∈ pre → x ≠ (o + 2 ^ k, k) := by
      intro hx he
      have := hpre_lt x hx
      rw [he] at this
      simp at this
    have F2a : x ∈ post2 → x ≠ (o, k) := by
      intro hx he
      have := hpost_ge x hx
      rw [he] at this
      simp at this
    have F2b : x ∈ post2 → x ≠ (o + 2 ^ k, k) := by
      intro hx he
      have := hpost_ge x hx
      rw [he] at this
      simp at this
      all_goals omega
    rw [hsplit]
    simp only [List.mem_append, List.mem_cons, List.not_mem_nil, or_false, false_or]
    constructor
    · rintro ((hx | he) | hx)
      · exact Or.inl ⟨Or.inl hx, F1a hx, F1b hx⟩
      · exact Or.inr he
      · exact Or.inl ⟨Or.inr (Or.inr (Or.inr hx)), F2a hx, F2b hx⟩
    · rintro (⟨hx | he | he | hx, hne1, hne2⟩ | he)
      · exact Or.inl (Or.inl hx)
      · exact absurd he hne1
      · exact absurd he hne2
      · exact Or.inr hx
      · exact Or.inl (Or.inr he)

/-! ### The free lists as chains -/

/-- Reading through a non-null pointer after a header store. -/
theorem readHdr_writeHdr (s : State) (p : Ptr) (h : Header) (r : Ptr)
    (hr : r ≠ Ptr.null) :
    readHdr (writeHdr s p h) r = if r = p then h else readHdr s r := by
  cases p with
  | null =>
    rw [if_neg]
    · rfl
    · intro he
      exact hr he
  | blk o =>
    cases r with
    | null => exact absurd rfl hr
    | blk x =>
      by_cases hx : x = o
      · subst hx
        simp [writeHdr, readHdr]
      · simp [writeHdr, readHdr, hx, Ptr.blk.injEq]
    | sent j => simp [writeHdr, readHdr]
  | sent i =>
    cases r with
    | null => exact absurd rfl hr
    | blk x => simp [writeHdr, readHdr]
    | sent j =>
      by_cases hj : j = i
      · subst hj
        simp [writeHdr, readHdr]
      · simp [writeHdr, readHdr, hj, Ptr.sent.injEq]

theorem readHdr_setTag (s : State) (p : Ptr) (v : Int) (r : Ptr) (hr : r ≠ Ptr.null) :
    readHdr (setTag s p v) r =
      if r = p then { readHdr s p with tag := v } else readHdr s r :=
  readHdr_writeHdr s p _ r hr

theorem readHdr_setKval (s : State) (p : Ptr) (v : Nat) (r : Ptr) (hr : r ≠ Ptr.null) :
    readHdr (setKval s p v) r =
      if r = p then { readHdr s p with kval := v } else readHdr s r :=
  readHdr_writeHdr s p _ r hr

theorem readHdr_setNext (s : State) (p v r : Ptr) (hr : r ≠ Ptr.null) :
    readHdr (setNext s p v) r =
      if r = p then { readHdr s p with next := v } else readHdr s r :=
  readHdr_writeHdr s p _ r hr

theorem readHdr_setPrev (s : State) (p v r : Ptr) (hr : r ≠ Ptr.null) :
    readHdr (setPrev s p v) r =
      if r = p then { readHdr s p with prev := v } else readHdr s r :=
  readHdr_writeHdr s p _ r hr

/-- The chain predicate: starting from the cell `pr`, the list `l` of block
offsets forms the circular doubly-linked list of `avail[k]` (each link in
both directions; the walk returns to the sentinel whose `prev` points at
the last element). -/
def seg (s : State) (k : Nat) : Ptr → List Nat → Prop
  | pr, [] => (readHdr s pr).next = Ptr.sent k ∧ (readHdr s (Ptr.sent k)).prev = pr
  | pr, a :: rest => (readHdr s pr).next = Ptr.blk a ∧ (readHdr s (Ptr.blk a)).prev = pr ∧
      seg s k (Ptr.blk a) rest

/-- `avail[k]`'s list is exactly `l`. -/
def listOK (s : State) (k : Nat) (l : List Nat) : Prop := seg s k (Ptr.sent k) l

/-- Chains only look at the sentinel cell `k` and the member cells. -/
theorem seg_frame {s s' : State} {k : Nat} :
    ∀ {l : List Nat} {pr : Ptr},
      (∀ a ∈ l, s'.mem a = s.mem a) → s'.avail k = s.avail k →
      (readHdr s' pr).next = (readHdr s pr).next →
      seg s k pr l → seg s' k pr l := by
  intro l
  induction l with
  | nil =>
    intro pr hmem hav hpr h
    refine ⟨by rw [hpr]; exact h.1, ?_⟩
    show (s'.avail k).prev = pr
    rw [hav]
    exact h.2
  | cons a rest ih =>
    intro pr hmem hav hpr h
    obtain ⟨h1, h2, h3⟩ := h
    have hma : s'.mem a = s.mem a := hmem a (List.mem_cons_self a rest)
    refine ⟨by rw [hpr]; exact h1, ?_, ?_⟩
    · show (s'.mem a).prev = pr
      rw [hma]
      exact h2
    · refine ih (fun x hx => hmem x (List.mem_cons_of_mem a hx)) hav ?_ h3
      show (s'.mem a).next = (s.mem a).next
      rw [hma]

/-- An empty chain is exactly "the sentinel head points to itself". -/
theorem listOK_empty_iff {s : State} {k : Nat} {l : List Nat} (h : listOK s k l) :
    (s.avail k).next = Ptr.sent k ↔ l = [] := by
  cases l with
  | nil => exact ⟨fun _ => rfl, fun _ => h.1⟩
  | cons a rest =>
    constructor
    · intro he
      have : (s.avail k).next = Ptr.blk a := h.1
      rw [he] at this
      cases this
    · intro he
      cases he

/-- Field-wise frame lemma for chains. -/
theorem seg_frame' {s s' : State} {k : Nat} :
    ∀ {l : List Nat} {pr : Ptr},
      (∀ a ∈ l, (readHdr s' (Ptr.blk a)).next = (readHdr s (Ptr.blk a)).next ∧
                (readHdr s' (Ptr.blk a)).prev = (readHdr s (Ptr.blk a)).prev) →
      (readHdr s' (Ptr.sent k)).prev = (readHdr s (Ptr.sent k)).prev →
      (readHdr s' pr).next = (readHdr s pr).next →
      seg s k pr l → seg s' k pr l := by
  intro l
  induction l with
  | nil =>
    intro pr hmem hsent hpr h
    exact ⟨by rw [hpr]; exact h.1, by rw [hsent]; exact h.2⟩
  | cons a rest ih =>
    intro pr hmem hsent hpr h
    obtain ⟨h1, h2, h3⟩ := h
    have hma := hmem a (List.mem_cons_self a rest)
    refine ⟨by rw [hpr]; exact h1, by rw [hma.2]; exact h2, ?_⟩
    exact ih (fun x hx => hmem x (List.mem_cons_of_mem a hx)) hsent hma.1 h3

/-- The pointer `pr` feeding a chain: the sentinel itself or a cell outside
the chain. -/
def SideOK (k : Nat) (full : List Nat) (pr : Ptr) : Prop :=
  pr = Ptr.sent k ∨ ∃ x, pr = Ptr.blk x ∧ x ∉ full

/-- The `prev` pointer of a chain member that has predecessors points at
the last of them. -/
theorem seg_prev_of_mid {s : State} {k b : Nat} {l2 : List Nat} :
    ∀ (l1 : List Nat) (pr : Ptr), seg s k pr (l1 ++ b :: l2) → l1 ≠ [] →
      ∃ y ∈ l1, (readHdr s (Ptr.blk b)).prev = Ptr.blk y := by
  intro l1
  induction l1 with
  | nil => intro pr _ hne; exact absurd rfl hne
  | cons a l1' ih =>
    intro pr h _
    obtain ⟨h1, h2, h3⟩ := h
    cases hl1' : l1' with
    | nil =>
      subst hl1'
      obtain ⟨g1, g2, g3⟩ := h3
      exact ⟨a, List.mem_cons_self a _, g2⟩
    | cons z zs =>
      have hne : l1' ≠ [] := by rw [hl1']; simp
      obtain ⟨y, hy, hyp⟩ := ih (Ptr.blk a) h3 hne
      exact ⟨y, List.mem_cons_of_mem a (hl1' ▸ hy), hyp⟩

/-- The `prev` pointer of the first chain element is the feeding pointer. -/
theorem seg_prev_of_head {s : State} {k b : Nat} {l2 : List Nat} {pr : Ptr}
    (h : seg s k pr (b :: l2)) : (readHdr s (Ptr.blk b)).prev = pr := h.2.1

/-- The `next` pointer of a chain member: its successor, or the sentinel. -/
theorem seg_next_of_mem {s : State} {k b : Nat} {l2 : List Nat} :
    ∀ (l1 : List Nat) (pr : Ptr), seg s k pr (l1 ++ b :: l2) →
      (l2 = [] ∧ (readHdr s (Ptr.blk b)).next = Ptr.sent k) ∨
      (∃ c rest, l2 = c :: rest ∧ (readHdr s (Ptr.blk b)).next = Ptr.blk c) := by
  intro l1
  induction l1 with
  | nil =>
    intro pr h
    obtain ⟨-, -, h3⟩ := h
    cases l2 with
    | nil => exact Or.inl ⟨rfl, h3.1⟩
    | cons c rest => exact Or.inr ⟨c, rest, rfl, h3.1⟩
  | cons a l1' ih =>
    intro pr h
    exact ih (Ptr.blk a) h.2.2

/-- The two unlink stores of the coalescing loop, with the buddy's header
read once (legitimate: the first store does not hit the buddy's own cell). -/
def detachWrites (s : State) (b : Nat) : State :=
  setPrev (setNext s (readHdr s (Ptr.blk b)).prev (readHdr s (Ptr.blk b)).next)
    (readHdr s (Ptr.blk b)).next (readHdr s (Ptr.blk b)).prev

theorem mergeStep_eq_detachWrites {s : State} {b : Nat}
    (hbp : (readHdr s (Ptr.blk b)).prev ≠ Ptr.blk b) :
    mergeStep (Ptr.blk b) s = detachWrites s b := by
  simp only [mergeStep, detachWrites]
  rw [readHdr_setNext s _ _ (Ptr.blk b) (by intro h; cases h)]
  rw [if_neg (fun he => hbp he.symm)]

theorem next_after_setPrev (s : State) (p v r : Ptr) (hr : r ≠ Ptr.null) :
    (readHdr (setPrev s p v) r).next = (readHdr s r).next := by
  rw [readHdr_setPrev s p v r hr]
  by_cases hrp : r = p
  · rw [if_pos hrp, hrp]
  · rw [if_neg hrp]

theorem prev_after_setNext (s : State) (p v r : Ptr) (hr : r ≠ Ptr.null) :
    (readHdr (setNext s p v) r).prev = (readHdr s r).prev := by
  rw [readHdr_setNext s p v r hr]
  by_cases hrp : r = p
  · rw [if_pos hrp, hrp]
  · rw [if_neg hrp]

theorem tagkval_after_setNext (s : State) (p v r : Ptr) (hr : r ≠ Ptr.null) :
    (readHdr (setNext s p v) r).tag = (readHdr s r).tag ∧
    (readHdr (setNext s p v) r).kval = (readHdr s r).kval := by
  rw [readHdr_setNext s p v r hr]
  by_cases hrp : r = p
  · rw [if_pos hrp, hrp]; exact ⟨rfl, rfl⟩
  · rw [if_neg hrp]; exact ⟨rfl, rfl⟩

theorem tagkval_after_setPrev (s : State) (p v r : Ptr) (hr : r ≠ Ptr.null) :
    (readHdr (setPrev s p v) r).tag = (readHdr s r).tag ∧
    (readHdr (setPrev s p v) r).kval = (readHdr s r).kval := by
  rw [readHdr_setPrev s p v r hr]
  by_cases hrp : r = p
  · rw [if_pos hrp, hrp]; exact ⟨rfl, rfl⟩
  · rw [if_neg hrp]; exact ⟨rfl, rfl⟩

/-- Unlinking a chain member removes exactly it from the chain. -/
theorem seg_detach {s : State} {k b : Nat} {l2 : List Nat} :
    ∀ (l1 : List Nat) (pr : Ptr),
      seg s k pr (l1 ++ b :: l2) →
      (l1 ++ b :: l2).Nodup →
      SideOK k (l1 ++ b :: l2) pr →
      seg (detachWrites s b) k pr (l1 ++ l2) := by
  intro l1
  induction l1 with
  | nil =>
    intro pr h hnd hside
    obtain ⟨h1, h2, h3⟩ := h
    have hprn : pr ≠ Ptr.null := by
      rcases hside with rfl | ⟨x, rfl, -⟩ <;> intro he <;> cases he
    cases l2 with
    | nil =>
      obtain ⟨hq, hsp⟩ := h3
      show (readHdr (detachWrites s b) pr).next = Ptr.sent k ∧
        (readHdr (detachWrites s b) (Ptr.sent k)).prev = pr
      constructor
      · unfold detachWrites
        rw [h2, hq]
        by_cases hpq : pr = Ptr.sent k
        · rw [readHdr_setPrev _ _ _ _ hprn, if_pos hpq]
          show (readHdr (setNext s pr (Ptr.sent k)) (Ptr.sent k)).next = Ptr.sent k
          rw [readHdr_setNext _ _ _ _ (by intro he; cases he), if_pos hpq.symm]
        · rw [readHdr_setPrev _ _ _ _ hprn, if_neg hpq]
          rw [readHdr_setNext _ _ _ _ hprn, if_pos rfl]
      · unfold detachWrites
        rw [h2, hq]
        rw [readHdr_setPrev _ _ _ _ (by intro he; cases he), if_pos rfl]
    | cons c rest =>
      obtain ⟨hq, hcp, h4⟩ := h3
      have hndfacts : b ≠ c ∧ b ∉ rest ∧ c ∉ rest ∧ rest.Nodup := by
        simp only [List.nil_append] at hnd
        rcases List.nodup_cons.mp hnd with ⟨hb, hcr⟩
        rcases List.nodup_cons.mp hcr with ⟨hc, hr⟩
        simp only [List.mem_cons] at hb
        exact ⟨fun he => hb (Or.inl he), fun he => hb (Or.inr he), hc, hr⟩
      have hprc : pr ≠ Ptr.blk c := by
        rcases hside with rfl | ⟨x, rfl, hx⟩
        · intro he; cases he
        · intro he
          cases he
          exact hx (by simp)
      refine ⟨?_, ?_, ?_⟩
      · unfold detachWrites
        rw [h2, hq]
        rw [next_after_setPrev _ _ _ _ hprn]
        rw [readHdr_setNext _ _ _ _ hprn, if_pos rfl]
      · unfold detachWrites
        rw [h2, hq]
        rw [readHdr_setPrev _ _ _ _ (by intro he; cases he), if_pos rfl]
      · refine seg_frame' ?_ ?_ ?_ h4
        · intro x hx
          have hxb : x ≠ b := fun he => hndfacts.2.1 (he ▸ hx)
          have hxc : x ≠ c := fun he => hndfacts.2.2.1 (he ▸ hx)
          have hxpr : Ptr.blk x ≠ pr := by
            rcases hside with rfl | ⟨y, rfl, hy⟩
            · intro he; cases he
            · intro he
              cases he
              exact hy (by simp [hx])
          constructor
          · unfold detachWrites
            rw [h2, hq]
            rw [next_after_setPrev _ _ _ _ (by intro he; cases he)]
            rw [readHdr_setNext _ _ _ _ (by intro he; cases he), if_neg hxpr]
          · unfold detachWrites
            rw [h2, hq]
            rw [readHdr_setPrev _ _ _ _ (by intro he; cases he),
              if_neg (by intro he; cases he; exact hxc rfl)]
            rw [prev_after_setNext _ _ _ _ (by intro he; cases he)]
        · unfold detachWrites
          rw [h2, hq]
          rw [readHdr_setPrev _ _ _ _ (by intro he; cases he), if_neg (by intro he; cases he)]
          rw [prev_after_setNext _ _ _ _ (by intro he; cases he)]
        · unfold detachWrites
          rw [h2, hq]
          rw [next_after_setPrev _ _ _ _ (by intro he; cases he)]
          rw [readHdr_setNext _ _ _ _ (by intro he; cases he),
            if_neg (fun he => hprc he.symm)]
  | cons a l1'' ih =>
    intro pr h hnd hside
    obtain ⟨h1, h2, h3⟩ := h
    have hfull : seg s k pr ((a :: l1'') ++ b :: l2) := ⟨h1, h2, h3⟩
    have hprn : pr ≠ Ptr.null := by
      rcases hside with rfl | ⟨x, rfl, -⟩ <;> intro he <;> cases he
    obtain ⟨y, hy, hP⟩ := seg_prev_of_mid (a :: l1'') pr hfull (by simp)
    have hQ := @seg_next_of_mem s k b l2 (a :: l1'') pr hfull
    have hcons := List.nodup_cons.mp (by rw [List.cons_append] at hnd; exact hnd)
    obtain ⟨ha_notin, hnd'⟩ := hcons
    refine ⟨?_, ?_, ?_⟩
    · have hprP : pr ≠ (readHdr s (Ptr.blk b)).prev := by
        rw [hP]
        rcases hside with rfl | ⟨x, rfl, hx⟩
        · intro he; cases he
        · intro he
          cases he
          exact hx (List.mem_append.mpr (Or.inl hy))
      unfold detachWrites
      rw [next_after_setPrev _ _ _ _ hprn]
      rw [readHdr_setNext _ _ _ _ hprn, if_neg hprP]
      exact h1
    · have haQ : Ptr.blk a ≠ (readHdr s (Ptr.blk b)).next := by
        rcases hQ with ⟨-, hq⟩ | ⟨c, rest, hl2, hq⟩
        · rw [hq]; intro he; cases he
        · rw [hq]
          intro he
          cases he
          refine ha_notin (List.mem_append.mpr (Or.inr ?_))
          rw [hl2]
          simp
      unfold detachWrites
      rw [readHdr_setPrev _ _ _ _ (by intro he; cases he), if_neg haQ]
      rw [prev_after_setNext _ _ _ _ (by intro he; cases he)]
      exact h2
    · exact ih (Ptr.blk a) h3 hnd' (Or.inr ⟨a, rfl, ha_notin⟩)

/-- All non-table, non-header state components. -/
def SameScalars (s1 s2 : State) : Prop :=
  s1.brk = s2.brk ∧ s1.start = s2.start ∧ s1.lgsize = s2.lgsize ∧ s1.size = s2.size ∧
  s1.bytes = s2.bytes ∧ s1.inited = s2.inited ∧ s1.errno = s2.errno

theorem SameScalars.refl (s : State) : SameScalars s s :=
  ⟨rfl, rfl, rfl, rfl, rfl, rfl, rfl⟩

theorem SameScalars.trans {s1 s2 s3 : State} (h1 : SameScalars s1 s2)
    (h2 : SameScalars s2 s3) : SameScalars s1 s3 := by
  obtain ⟨a1, a2, a3, a4, a5, a6, a7⟩ := h1
  obtain ⟨b1, b2, b3, b4, b5, b6, b7⟩ := h2
  exact ⟨a1.trans b1, a2.trans b2, a3.trans b3, a4.trans b4, a5.trans b5,
    a6.trans b6, a7.trans b7⟩

theorem SameScalars_writeHdr (s : State) (p : Ptr) (h : Header) :
    SameScalars (writeHdr s p h) s := by
  cases p <;> exact ⟨rfl, rfl, rfl, rfl, rfl, rfl, rfl⟩

theorem SameScalars_setTag (s : State) (p : Ptr) (v : Int) :
    SameScalars (setTag s p v) s := SameScalars_writeHdr s p _

theorem SameScalars_setKval (s : State) (p : Ptr) (v : Nat) :
    SameScalars (setKval s p v) s := SameScalars_writeHdr s p _

theorem SameScalars_setNext (s : State) (p v : Ptr) :
    SameScalars (setNext s p v) s := SameScalars_writeHdr s p _

theorem SameScalars_setPrev (s : State) (p v : Ptr) :
    SameScalars (setPrev s p v) s := SameScalars_writeHdr s p _

theorem SameScalars_detachWrites (s : State) (b : Nat) :
    SameScalars (detachWrites s b) s :=
  SameScalars.trans (SameScalars_setPrev _ _ _) (SameScalars_setNext _ _ _)

theorem SameScalars_putOnList (s : State) (L : Ptr) (k : Nat) :
    SameScalars (putOnList L k s) s := by
  unfold putOnList
  exact SameScalars.trans (SameScalars_setNext _ _ _)
    (SameScalars.trans (SameScalars_setPrev _ _ _)
      (SameScalars.trans (SameScalars_setKval _ _ _)
        (SameScalars.trans (SameScalars_setPrev _ _ _)
          (SameScalars.trans (SameScalars_setNext _ _ _) (SameScalars_setTag _ _ _)))))

theorem SameScalars_splitLoop (L : Ptr) (kval : Nat) :
    ∀ fuel j s, SameScalars (splitLoop L kval fuel j s) s := by
  intro fuel
  induction fuel with
  | zero => intro j s; exact SameScalars.refl s
  | succ fuel ih =>
    intro j s
    rw [splitLoop]
    by_cases hj : j = kval
    · rw [if_pos hj]; exact SameScalars.refl s
    · rw [if_neg hj]
      refine SameScalars.trans (ih _ _) ?_
      refine SameScalars.trans (SameScalars_setPrev _ _ _) ?_
      refine SameScalars.trans (SameScalars_setNext _ _ _) ?_
      refine SameScalars.trans (SameScalars_setPrev _ _ _) ?_
      refine SameScalars.trans (SameScalars_setNext _ _ _) ?_
      exact SameScalars.trans (SameScalars_setKval _ _ _) (SameScalars_setTag _ _ _)

/-- Shapes of the two neighbor pointers of a listed block. -/
theorem listOK_neighbor_shapes {s : State} {k b : Nat} {l1 l2 : List Nat}
    (h : listOK s k (l1 ++ b :: l2)) :
    ((readHdr s (Ptr.blk b)).prev = Ptr.sent k ∨
      ∃ y, (readHdr s (Ptr.blk b)).prev = Ptr.blk y ∧ y ∈ l1) ∧
    ((readHdr s (Ptr.blk b)).next = Ptr.sent k ∨
      ∃ c, (readHdr s (Ptr.blk b)).next = Ptr.blk c ∧ c ∈ l2) := by
  constructor
  · cases l1 with
    | nil => exact Or.inl (seg_prev_of_head h)
    | cons a l1' =>
      obtain ⟨y, hy, hyp⟩ := seg_prev_of_mid (a :: l1') (Ptr.sent k) h (by simp)
      exact Or.inr ⟨y, hyp, hy⟩
  · rcases seg_next_of_mem l1 (Ptr.sent k) h with ⟨-, hq⟩ | ⟨c, rest, hl2, hq⟩
    · exact Or.inl hq
    · exact Or.inr ⟨c, hq, by rw [hl2]; exact List.mem_cons_self c rest⟩

/-- Everything the unlink stores do NOT touch. -/
theorem detachWrites_frame {s : State} {k b : Nat} {l1 l2 : List Nat}
    (h : listOK s k (l1 ++ b :: l2)) (hnd : (l1 ++ b :: l2).Nodup) :
    (∀ j, j ≠ k → (detachWrites s b).avail j = s.avail j) ∧
    ((detachWrites s b).avail k).tag = (s.avail k).tag ∧
    ((detachWrites s b).avail k).kval = (s.avail k).kval ∧
    (∀ o, o ∉ l1 ++ b :: l2 → (detachWrites s b).mem o = s.mem o) ∧
    (detachWrites s b).mem b = s.mem b ∧
    (∀ o, ((detachWrites s b).mem o).tag = (s.mem o).tag ∧
          ((detachWrites s b).mem o).kval = (s.mem o).kval) := by
  obtain ⟨hPf, hQf⟩ := listOK_neighbor_shapes h
  have hbl1 : b ∉ l1 := by
    intro hx
    have := List.nodup_append.mp hnd
    exact this.2.2 hx (List.mem_cons_self b l2)
  have hbl2 : b ∉ l2 := by
    have : (b :: l2).Nodup := (List.nodup_append.mp hnd).2.1
    exact (List.nodup_cons.mp this).1
  have hPblk : ∀ o : Nat, (readHdr s (Ptr.blk b)).prev = Ptr.blk o → o ∈ l1 := by
    intro o ho
    rcases hPf with hp | ⟨y, hp, hy⟩
    · rw [ho] at hp; cases hp
    · rw [ho] at hp; cases hp; exact hy
  have hQblk : ∀ o : Nat, (readHdr s (Ptr.blk b)).next = Ptr.blk o → o ∈ l2 := by
    intro o ho
    rcases hQf with hp | ⟨c, hp, hc⟩
    · rw [ho] at hp; cases hp
    · rw [ho] at hp; cases hp; exact hc
  have hPsent : ∀ j : Nat, (readHdr s (Ptr.blk b)).prev = Ptr.sent j → j = k := by
    intro j hj
    rcases hPf with hp | ⟨y, hp, -⟩
    · rw [hj] at hp; cases hp; rfl
    · rw [hj] at hp; cases hp
  have hQsent : ∀ j : Nat, (readHdr s (Ptr.blk b)).next = Ptr.sent j → j = k := by
    intro j hj
    rcases hQf with hp | ⟨c, hp, -⟩
    · rw [hj] at hp; cases hp; rfl
    · rw [hj] at hp; cases hp
  refine ⟨?_, ?_, ?_, ?_, ?_, ?_⟩
  · intro j hj
    show readHdr (detachWrites s b) (Ptr.sent j) = s.avail j
    unfold detachWrites
    rw [readHdr_setPrev _ _ _ _ (by intro he; cases he),
      if_neg (by intro he; exact hj (hQsent j he.symm))]
    rw [readHdr_setNext _ _ _ _ (by intro he; cases he),
      if_neg (by intro he; exact hj (hPsent j he.symm))]
    rfl
  · show (readHdr (detachWrites s b) (Ptr.sent k)).tag = (readHdr s (Ptr.sent k)).tag
    unfold detachWrites
    rw [(tagkval_after_setPrev _ _ _ _ (by intro he; cases he)).1,
      (tagkval_after_setNext _ _ _ _ (by intro he; cases he)).1]
  · show (readHdr (detachWrites s b) (Ptr.sent k)).kval = (readHdr s (Ptr.sent k)).kval
    unfold detachWrites
    rw [(tagkval_after_setPrev _ _ _ _ (by intro he; cases he)).2,
      (tagkval_after_setNext _ _ _ _ (by intro he; cases he)).2]
  · intro o ho
    show readHdr (detachWrites s b) (Ptr.blk o) = s.mem o
    unfold detachWrites
    rw [readHdr_setPrev _ _ _ _ (by intro he; cases he),
      if_neg (by
        intro he
        have := hQblk o he.symm
        exact ho (List.mem_append.mpr (Or.inr (List.mem_cons_of_mem b this))))]
    rw [readHdr_setNext _ _ _ _ (by intro he; cases he),
      if_neg (by
        intro he
        have := hPblk o he.symm
        exact ho (List.mem_append.mpr (Or.inl this)))]
    rfl
  · show readHdr (detachWrites s b) (Ptr.blk b) = s.mem b
    unfold detachWrites
    rw [readHdr_setPrev _ _ _ _ (by intro he; cases he),
      if_neg (by intro he; exact hbl2 (hQblk b he.symm))]
    rw [readHdr_setNext _ _ _ _ (by intro he; cases he),
      if_neg (by intro he; exact hbl1 (hPblk b he.symm))]
    rfl
  · intro o
    constructor
    · show (readHdr (detachWrites s b) (Ptr.blk o)).tag = (readHdr s (Ptr.blk o)).tag
      unfold detachWrites
      rw [(tagkval_after_setPrev _ _ _ _ (by intro he; cases he)).1,
        (tagkval_after_setNext _ _ _ _ (by intro he; cases he)).1]
    · show (readHdr (detachWrites s b) (Ptr.blk o)).kval = (readHdr s (Ptr.blk o)).kval
      unfold detachWrites
      rw [(tagkval_after_setPrev _ _ _ _ (by intro he; cases he)).2,
        (tagkval_after_setNext _ _ _ _ (by intro he; cases he)).2]

/-- Head insertion into an empty list: full description of the writes. -/
theorem putOnList_facts_empty {s : State} {k L : Nat}
    (hA : (s.avail k).next = Ptr.sent k) :
    (putOnList (Ptr.blk L) k s).avail k =
      { s.avail k with next := Ptr.blk L, prev := Ptr.blk L } ∧
    (putOnList (Ptr.blk L) k s).mem L = ⟨FREE, k, Ptr.sent k, Ptr.sent k⟩ ∧
    (∀ j, j ≠ k → (putOnList (Ptr.blk L) k s).avail j = s.avail j) ∧
    (∀ o, o ≠ L → (putOnList (Ptr.blk L) k s).mem o = s.mem o) := by
  refine ⟨?_, ?_, ?_, ?_⟩
  · simp [putOnList, setTag, setKval, setNext, setPrev, writeHdr, readHdr, hA]
  · simp [putOnList, setTag, setKval, setNext, setPrev, writeHdr, readHdr, hA, FREE]
  · intro j hj
    simp [putOnList, setTag, setKval, setNext, setPrev, writeHdr, readHdr, hA, hj]
  · intro o ho
    simp [putOnList, setTag, setKval, setNext, setPrev, writeHdr, readHdr, hA, ho]

/-- Head insertion into a non-empty list: full description of the writes. -/
theorem putOnList_facts_cons {s : State} {k L a : Nat}
    (hB : (s.avail k).next = Ptr.blk a) (haL : a ≠ L) :
    (putOnList (Ptr.blk L) k s).avail k = { s.avail k with next := Ptr.blk L } ∧
    (putOnList (Ptr.blk L) k s).mem L = ⟨FREE, k, Ptr.blk a, Ptr.sent k⟩ ∧
    (putOnList (Ptr.blk L) k s).mem a = { s.mem a with prev := Ptr.blk L } ∧
    (∀ j, j ≠ k → (putOnList (Ptr.blk L) k s).avail j = s.avail j) ∧
    (∀ o, o ≠ L → o ≠ a → (putOnList (Ptr.blk L) k s).mem o = s.mem o) := by
  refine ⟨?_, ?_, ?_, ?_, ?_⟩
  · simp [putOnList, setTag, setKval, setNext, setPrev, writeHdr, readHdr, hB, haL]
  · simp [putOnList, setTag, setKval, setNext, setPrev, writeHdr, readHdr, hB, haL,
      haL.symm, FREE]
  · simp [putOnList, setTag, setKval, setNext, setPrev, writeHdr, readHdr, hB, haL, haL.symm]
  · intro j hj
    simp [putOnList, setTag, setKval, setNext, setPrev, writeHdr, readHdr, hB, hj]
  · intro o ho1 ho2
    simp [putOnList, setTag, setKval, setNext, setPrev, writeHdr, readHdr, hB, ho1, ho2]

/-- Head insertion prepends the block to the chain. -/
theorem putOnList_listOK {s : State} {k L : Nat} {l : List Nat}
    (h : listOK s k l) (hnd : l.Nodup) (hL : L ∉ l) :
    listOK (putOnList (Ptr.blk L) k s) k (L :: l) := by
  cases l with
  | nil =>
    obtain ⟨hA, hpr⟩ := h
    obtain ⟨A1, A2, -, -⟩ := putOnList_facts_empty (s := s) (L := L) hA
    refine ⟨?_, ?_, ?_, ?_⟩
    · show ((putOnList (Ptr.blk L) k s).avail k).next = Ptr.blk L
      rw [A1]
    · show ((putOnList (Ptr.blk L) k s).mem L).prev = Ptr.sent k
      rw [A2]
    · show ((putOnList (Ptr.blk L) k s).mem L).next = Ptr.sent k
      rw [A2]
    · show ((putOnList (Ptr.blk L) k s).avail k).prev = Ptr.blk L
      rw [A1]
  | cons a rest =>
    obtain ⟨hB, hap, hseg⟩ := h
    have haL : a ≠ L := fun he => hL (he ▸ List.mem_cons_self a rest)
    obtain ⟨B1, B2, B3, -, B5⟩ := putOnList_facts_cons (s := s) (L := L) hB haL
    have hnd' := List.nodup_cons.mp hnd
    refine ⟨?_, ?_, ?_, ?_, ?_⟩
    · show ((putOnList (Ptr.blk L) k s).avail k).next = Ptr.blk L
      rw [B1]
    · show ((putOnList (Ptr.blk L) k s).mem L).prev = Ptr.sent k
      rw [B2]
    · show ((putOnList (Ptr.blk L) k s).mem L).next = Ptr.blk a
      rw [B2]
    · show ((putOnList (Ptr.blk L) k s).mem a).prev = Ptr.blk L
      rw [B3]
    · refine seg_frame' ?_ ?_ ?_ hseg
      · intro x hx
        have hxL : x ≠ L := fun he => hL (he ▸ List.mem_cons_of_mem a hx)
        have hxa : x ≠ a := fun he => hnd'.1 (he ▸ hx)
        have := B5 x hxL hxa
        constructor
        · show ((putOnList (Ptr.blk L) k s).mem x).next = (s.mem x).next
          rw [this]
        · show ((putOnList (Ptr.blk L) k s).mem x).prev = (s.mem x).prev
          rw [this]
      · show ((putOnList (Ptr.blk L) k s).avail k).prev = (s.avail k).prev
        rw [B1]
      · show ((putOnList (Ptr.blk L) k s).mem a).next = (s.mem a).next
        rw [B3]
